import Mathlib

/-!
# Verification of the BVH builder in `src/bvh.cpp` (mini.q, namespace `q::rt`)

A shallow embedding of the SAH-driven BVH build pipeline:
`injection` (per-primitive data, three per-axis sorted index permutations),
`sweep` (per-axis SAH split search with a leaf alternative), `makenode` /
`makeleaf` / `maketriangle` (node emission), and `compiler::compile`
(iterative driver with an explicit work stack), plus the `create` entry
point.

Scalars are modelled as `ℚ`; the C code uses `float`.  `FLT_MAX` is the
exact value of the C constant.  Box composition is componentwise min/max
and is exact in both models; cost arithmetic is exact here while the C
code rounds, so theorems about which branch a comparison takes describe
the exact-arithmetic behaviour of the same expressions.

Machinery note: `Rat.add` etc. are `@[irreducible]` in the ambient
library, which blocks kernel evaluation of concrete runs; we restore the
default reducibility so that `decide` can evaluate the builder on
concrete inputs.
-/

set_option allowUnsafeReducibility true
attribute [semireducible] Rat.add Rat.mul Rat.sub Rat.inv Rat.ofScientific

namespace BVH

/-- 3-component vector of scalars (`vec3f` in the source). -/
structure Vec3 where
  x : ℚ
  y : ℚ
  z : ℚ
  deriving DecidableEq, Repr

namespace Vec3

def add (a b : Vec3) : Vec3 := ⟨a.x + b.x, a.y + b.y, a.z + b.z⟩

def sub (a b : Vec3) : Vec3 := ⟨a.x - b.x, a.y - b.y, a.z - b.z⟩

def smul (q : ℚ) (a : Vec3) : Vec3 := ⟨q * a.x, q * a.y, q * a.z⟩

/-- Component access `v[i]` (i = 0, 1, 2). -/
def get (a : Vec3) : ℕ → ℚ
  | 0 => a.x
  | 1 => a.y
  | _ => a.z

def min3 (a b : Vec3) : Vec3 := ⟨min a.x b.x, min a.y b.y, min a.z b.z⟩

def max3 (a b : Vec3) : Vec3 := ⟨max a.x b.x, max a.y b.y, max a.z b.z⟩

/-- `cross(b, c)` as used by `maketriangle`. -/
def cross (a b : Vec3) : Vec3 :=
  ⟨a.y * b.z - a.z * b.y, a.z * b.x - a.x * b.z, a.x * b.y - a.y * b.x⟩

def dot (a b : Vec3) : ℚ := a.x * b.x + a.y * b.y + a.z * b.z

end Vec3

/-- The exact value of the C constant `FLT_MAX` (`(2 - 2^-23) * 2^127`). -/
def fltMax : ℚ := 340282346638528859811704183484516925440

/-- All-components constant vector, `vec3f(q)`. -/
def Vec3.const (q : ℚ) : Vec3 := ⟨q, q, q⟩

/-- Axis-aligned bounding box (`aabb` in the source). -/
structure Aabb where
  pmin : Vec3
  pmax : Vec3
  deriving DecidableEq, Repr

namespace Aabb

/-- `aabb(FLT_MAX, -FLT_MAX)`: the inverted "empty" box the source uses
as the seed of every union. -/
def empty : Aabb := ⟨Vec3.const fltMax, Vec3.const (-fltMax)⟩

/-- `aabb::compose`: componentwise min of `pmin`s and max of `pmax`s. -/
def compose (a b : Aabb) : Aabb := ⟨a.pmin.min3 b.pmin, a.pmax.max3 b.pmax⟩

/-- `aabb::halfarea`: `dx*dy + dy*dz + dz*dx` of the extents. -/
def halfarea (b : Aabb) : ℚ :=
  let d := b.pmax.sub b.pmin
  d.x * d.y + d.y * d.z + d.z * d.x

/-- A box whose corners a `float` could hold: every component is within
`[-FLT_MAX, FLT_MAX]`.  Under this bound `compose` with `empty` is the
identity, exactly as for finite floats. -/
def Bounded (b : Aabb) : Prop :=
  -fltMax ≤ b.pmin.x ∧ b.pmin.x ≤ fltMax ∧
  -fltMax ≤ b.pmin.y ∧ b.pmin.y ≤ fltMax ∧
  -fltMax ≤ b.pmin.z ∧ b.pmin.z ≤ fltMax ∧
  -fltMax ≤ b.pmax.x ∧ b.pmax.x ≤ fltMax ∧
  -fltMax ≤ b.pmax.y ∧ b.pmax.y ≤ fltMax ∧
  -fltMax ≤ b.pmax.z ∧ b.pmax.z ≤ fltMax

instance : DecidablePred Bounded := fun b => by unfold Bounded; infer_instance

end Aabb

/-- A primitive: a triangle (`primitive::TRI`, three vertices) or an
opaque sub-intersector (`primitive::INTERSECTOR`).

Modelled from the spec: `primitive` lives in the missing header
`bvh.hpp`; per §3 it is a tagged variant, a sub-intersector being an
opaque handle plus its AABB (stored in `v[0]`, `v[1]` as the corners the
centroid code reads). -/
inductive Prim where
  | tri (v0 v1 v2 : Vec3)
  | isec (pmin pmax : Vec3)
  deriving DecidableEq, Repr

namespace Prim

/-- `h.type == primitive::TRI`. -/
def istri : Prim → Bool
  | tri _ _ _ => true
  | isec _ _ => false

/-- Modelled from the spec: `primitive::getaabb` is in the missing
header; §3 says each primitive yields a deterministic AABB — the
bounding box of the three vertices for a triangle, the stored box for a
sub-intersector. -/
def getaabb : Prim → Aabb
  | tri a b c => ⟨(a.min3 b).min3 c, (a.max3 b).max3 c⟩
  | isec a b => ⟨a, b⟩

/-- The `centroid` constructor: mean of the vertices for a triangle,
midpoint of `v[0]`, `v[1]` otherwise. -/
def centroid : Prim → Vec3
  | tri a b c => Vec3.smul (1/3) ((a.add b).add c)
  | isec a b => Vec3.smul (1/2) (a.add b)

end Prim

/-- Build options (the `VAR(...)` console variables read by the
builder): `maxprimitivenum`, `sahintersectioncost`, `sahtraversalcost`,
with their source defaults 8, 4, 4. -/
structure Config where
  maxprimitivenum : ℕ
  sahintersectioncost : ℕ
  sahtraversalcost : ℕ
  deriving DecidableEq, Repr

/-- The source defaults `VAR(maxprimitivenum,1,8,16)` etc. -/
def defaultConfig : Config := ⟨8, 4, 4⟩

/-- Wald triangle precomputation record (`waldtriangle`), produced by
`maketriangle`; `num` is set afterwards by `makeleaf`. -/
structure Wald where
  n : ℚ × ℚ
  bn : ℚ × ℚ
  cn : ℚ × ℚ
  vertk : ℚ × ℚ
  nd : ℚ
  id : ℕ
  k : ℕ
  sign : ℕ
  matid : ℕ
  num : ℕ
  deriving DecidableEq, Repr

/-- Payload of an output node.

Modelled from the spec: the node bit layout lives in the missing header;
§3/§6 describe it as a tagged variant — inner nodes carry the split
axis and the relative offset written by `setoffset`, triangle leaves a
pointer into the `acc` array (here: its index) and sub-intersector
leaves the opaque handle (here: the index of the referenced primitive).
-/
inductive NodeData where
  | inner (axis : ℕ) (offset : ℕ)
  | trileaf (accStart : ℕ)
  | isecleaf (primId : ℕ)
  deriving DecidableEq, Repr

/-- Output node: box plus tagged payload (`intersector::node`). -/
structure Node where
  box : Aabb
  data : NodeData
  deriving DecidableEq, Repr

/-- A driver work item (`struct segment`): inclusive index range into
the sort state, reserved node slot, box of the range. -/
structure Segment where
  first : ℕ
  last : ℕ
  id : ℕ
  box : Aabb
  deriving DecidableEq, Repr

/-- Number of primitives in a segment (`last - first + 1`). -/
def Segment.sz (s : Segment) : ℕ := s.last + 1 - s.first

/-- `ONLEFT` / `ONRIGHT` side tags. -/
def ONLEFT : ℕ := 0

def ONRIGHT : ℕ := 1

/-- A record of one emitted leaf (ghost instrumentation: the primitive
ids `ids[0][first..last]` the leaf covers, the count `n`, and whether
the sub-intersector branch of `makeleaf` was taken). -/
structure LeafRec where
  pids : List ℕ
  cnt : ℕ
  isIsec : Bool
  deriving DecidableEq, Repr

/-- The whole compiler state (`struct compiler` plus ghost
instrumentation fields).  `root` is the node pool as an association
list of writes (most recent first); `edges` records, at each inner-node
emission, the node id and the two child slots it reserves; `pushes`
records at each emission the sizes `(pushed, continued)` of the two
sub-segments; `maxstack` tracks the largest value `stacksz` reaches. -/
structure BState where
  cfg : Config
  prims : List Prim
  n : ℕ
  istri : List Bool
  boxes : List Aabb
  centroids : List Vec3
  ids0 : List ℕ
  ids1 : List ℕ
  ids2 : List ℕ
  pos : List ℕ
  scenebox : Aabb
  root : List (ℕ × Node)
  acc : List Wald
  currid : ℕ
  leafnum : ℕ
  nodenum : ℕ
  edges : List (ℕ × ℕ × ℕ)
  pushes : List (ℕ × ℕ)
  leafrecs : List LeafRec
  maxstack : ℕ
  deriving DecidableEq, Repr

namespace BState

/-- `ids[a]`. -/
def getIds (c : BState) : ℕ → List ℕ
  | 0 => c.ids0
  | 1 => c.ids1
  | _ => c.ids2

/-- Write `ids[a]`. -/
def setIds (c : BState) (a : ℕ) (l : List ℕ) : BState :=
  match a with
  | 0 => { c with ids0 := l }
  | 1 => { c with ids1 := l }
  | _ => { c with ids2 := l }

/-- `ids[a][i]`. -/
def idAt (c : BState) (a i : ℕ) : ℕ := (c.getIds a).getD i 0

/-- `boxes[i]`. -/
def boxAt (c : BState) (i : ℕ) : Aabb := c.boxes.getD i Aabb.empty

/-- `istri[i]`. -/
def istriAt (c : BState) (i : ℕ) : Bool := c.istri.getD i false

/-- `prims[i]`. -/
def primAt (c : BState) (i : ℕ) : Prim := c.prims.getD i (Prim.isec (Vec3.const 0) (Vec3.const 0))

/-- Look a node slot up in the pool (last write wins). -/
def getNode (c : BState) (i : ℕ) : Option Node :=
  (c.root.find? (fun p => p.1 == i)).map Prod.snd

end BState

/-- The inclusive slice `l[first..last]`. -/
def slice (l : List ℕ) (first last : ℕ) : List ℕ :=
  (l.drop first).take (last + 1 - first)

/-- Replace the inclusive slice `l[first..last]` by `mid`. -/
def splice (l : List ℕ) (first last : ℕ) (mid : List ℕ) : List ℕ :=
  l.take first ++ mid ++ l.drop (last + 1)

/-- Union of `boxes[i]` over an id list, seeded with the inverted empty
box exactly as every union in the source is. -/
def unionBoxes (c : BState) (l : List ℕ) : Aabb :=
  l.foldl (fun b i => b.compose (c.boxAt i)) Aabb.empty

/-- The right-to-left inclusion sequence of `sweep`:
`rlbox c a j cnt = boxes[ids[a][j]] ∪ … ∪ boxes[ids[a][j+cnt]]`,
i.e. the value `c.rlboxes[c.ids[a][j]]` holds when the sweep's first
loop has finished (`j + cnt = last`). -/
def rlbox (c : BState) (a : ℕ) (j : ℕ) : ℕ → Aabb
  | 0 => c.boxAt (c.idAt a j)
  | cnt + 1 => (c.boxAt (c.idAt a j)).compose (rlbox c a (j + 1) cnt)

/-- Partition candidate (`struct partition`).  Ranges are `Int` because
the leaf sentinel stores `-1`; `cost` is `none` for the initial
`FLT_MAX`. -/
structure Partition where
  boxL : Aabb
  boxR : Aabb
  cost : Option ℚ
  axis : ℕ
  firstL : Int
  lastL : Int
  firstR : Int
  lastR : Int
  deriving DecidableEq, Repr

/-- `partition(f, l, d)`: both ranges `[f, l]`, cost `FLT_MAX`, boxes
inverted-empty. -/
def Partition.init (f l : ℕ) (d : ℕ) : Partition :=
  ⟨Aabb.empty, Aabb.empty, none, d, f, l, f, l⟩

/-- `x > FLT_MAX`-style comparison: is `a` strictly greater than the
running best (`none` = `FLT_MAX`, larger than every cost here)? -/
def costGt (a : ℚ) : Option ℚ → Bool
  | none => false
  | some b => a > b

/-- `cost <= part.cost` with `none` = `FLT_MAX`. -/
def costLe (a : ℚ) : Option ℚ → Bool
  | none => true
  | some b => a ≤ b

/-- `part.cost < best.cost` of the driver (`none` = `FLT_MAX`). -/
def costLt : Option ℚ → Option ℚ → Bool
  | none, _ => false
  | some _, none => true
  | some a, some b => a < b

/-- Running state of the sweep's left-to-right loop: the running left
box, the left population `n`, the `alltris` flag, and the best
partition so far. -/
structure SweepSt where
  box : Aabb
  npop : ℕ
  alltris : Bool
  part : Partition
  deriving DecidableEq, Repr

/-- One iteration of the sweep loop at position `j` (the body of
`for (s32 j = first; j < last; ++j)`). -/
def sweepStep (c : BState) (a last primnum : ℕ) (st : SweepSt) (j : ℕ) : SweepSt :=
  let left := c.idAt a j
  let box := st.box.compose (c.boxAt left)
  let larea := box.halfarea
  let rarea := (rlbox c a (j + 1) (last - (j + 1))).halfarea
  let cost := larea * st.npop + rarea * (primnum - st.npop : ℕ)
  let npop := st.npop + 1
  let alltris := st.alltris && c.istriAt left
  if costGt cost st.part.cost then
    { st with box := box, npop := npop, alltris := alltris }
  else
    { box := box, npop := npop, alltris := alltris,
      part := { st.part with
        cost := some cost
        lastL := j
        firstR := (j : Int) + 1
        boxL := box
        boxR := rlbox c a (j + 1) (last - (j + 1)) } }

/-- The whole left-to-right loop of `sweep`: fold the step over
`j = first .. last-1`. -/
def sweepScan (c : BState) (a first last : ℕ) : SweepSt :=
  ((List.range (last - first)).map (fun k => first + k)).foldl
    (sweepStep c a last (last + 1 - first))
    ⟨Aabb.empty, 1, true, Partition.init first last a⟩

/-- `sweep<axis>(c, first, last)`: the loop, then the leaf alternative
(`// get the real cost ...` onwards). -/
def sweep (c : BState) (a first last : ℕ) : Partition :=
  let st := sweepScan c a first last
  let primnum := last + 1 - first
  let id := c.idAt a last
  if !(st.alltris && c.istriAt id) then st.part
  else
    let box := st.box.compose (c.boxAt id)
    let harea := box.halfarea
    let part := { st.part with
      cost := st.part.cost.map
        (fun q => q * c.cfg.sahintersectioncost + c.cfg.sahtraversalcost * harea) }
    if primnum > c.cfg.maxprimitivenum then part
    else
      let cost : ℚ := (c.cfg.sahintersectioncost : ℚ) * primnum * harea
      if costLe cost part.cost then
        { part with
          cost := some cost
          lastR := -1
          lastL := -1
          firstR := -1
          firstL := -1
          boxR := box
          boxL := box }
      else part

/-- `maketriangle(t, w, id, matid)`: Wald precomputation for a triangle
(the `num` field is filled by the caller; division by zero yields `0`
here where the C code yields inf/NaN — the spec's documented sharp edge
for degenerate triangles). -/
def maketriangle (t : Prim) (id matid : ℕ) : Wald :=
  match t with
  | Prim.isec _ _ => ⟨(0, 0), (0, 0), (0, 0), (0, 0), 0, id, 0, 0, matid, 0⟩
  | Prim.tri A B C =>
    let b := B.sub A
    let c := C.sub A
    let N := b.cross c
    let k1 := if |N.get 1| > |N.get 0| then 1 else 0
    let k := if |N.get 2| > |N.get k1| then 2 else k1
    let u := (k + 1) % 3
    let v := (k + 2) % 3
    let denom := b.get u * c.get v - b.get v * c.get u
    let krec := N.get k
    { n := (N.get u / krec, N.get v / krec)
      bn := (-(b.get v) / denom, b.get u / denom)
      cn := (c.get v / denom, -(c.get u) / denom)
      vertk := (A.get u, A.get v)
      nd := N.dot A / krec
      id := id
      k := k
      sign := if N.get k < 0 then 1 else 0
      matid := matid
      num := 0 }

/-- `makenode(c, data, axis)`: write an inner node at slot `data.id`
with `offset = currid + 1 - data.id`, bump `nodenum`, and (ghost) record
the edge to the two child slots `currid+1`, `currid+2` this reserves. -/
def makenode (c : BState) (data : Segment) (axis : ℕ) : BState :=
  { c with
    root := (data.id, ⟨data.box, NodeData.inner axis (c.currid + 1 - data.id)⟩) :: c.root
    nodenum := c.nodenum + 1
    edges := c.edges ++ [(data.id, c.currid + 1, c.currid + 2)] }

/-- `makeleaf(c, data)`: a sub-intersector leaf if the first referenced
primitive is a sub-intersector (the code asserts `n == 1` there),
otherwise a triangle leaf appending one Wald record per primitive of
the range, each with `num = n`. -/
def makeleaf (c : BState) (data : Segment) : BState :=
  let n := data.last - data.first + 1
  let pids := slice c.ids0 data.first data.last
  let firstPrim := c.primAt (c.idAt 0 data.first)
  if firstPrim.istri = false then
    { c with
      root := (data.id, ⟨data.box, NodeData.isecleaf (c.idAt 0 data.first)⟩) :: c.root
      leafnum := c.leafnum + 1
      nodenum := c.nodenum + 1
      leafrecs := c.leafrecs ++ [⟨pids, n, true⟩] }
  else
    { c with
      root := (data.id, ⟨data.box, NodeData.trileaf c.acc.length⟩) :: c.root
      acc := c.acc ++ pids.map (fun id => { maketriangle (c.primAt id) id 0 with num := n })
      leafnum := c.leafnum + 1
      nodenum := c.nodenum + 1
      leafrecs := c.leafrecs ++ [⟨pids, n, false⟩] }

/-- Write `pos[ids[a][start+k]] := v` for `k < cnt` (one of the two
position-marking loops of `compile`). -/
def setRange (pos : List ℕ) (idsa : List ℕ) (start : ℕ) (v : ℕ) : ℕ → List ℕ
  | 0 => pos
  | cnt + 1 => setRange (pos.set (idsa.getD start 0) v) idsa (start + 1) v cnt

/-- The two marking loops: `pos[ids[axis][j]] = ONLEFT` on the left
range then `ONRIGHT` on the right range. -/
def markPositions (c : BState) (axis fL lL fR lR : ℕ) : BState :=
  let p1 := setRange c.pos (c.getIds axis) fL ONLEFT (lL + 1 - fL)
  let p2 := setRange p1 (c.getIds axis) fR ONRIGHT (lR + 1 - fR)
  { c with pos := p2 }

/-- The in-place reorder of one other axis `d0` over `[first..last]`:
entries whose `pos` is `ONLEFT` are compacted to the head in encounter
order (the in-place writes trail the reads), the rest are collected in
`tmpids` in encounter order and copied to the tail — i.e. a stable
partition of the slice.  Returns the new array and `(leftnum,
rightnum)`. -/
def reorderAxis (pos : List ℕ) (ids : List ℕ) (first last : ℕ) :
    List ℕ × ℕ × ℕ :=
  let sl := slice ids first last
  let lefts := sl.filter (fun id => pos.getD id 1 == ONLEFT)
  let rights := sl.filter (fun id => !(pos.getD id 1 == ONLEFT))
  (splice ids first last (lefts ++ rights), lefts.length, rights.length)

/-- `{1, 2, 0, 1}[i]` (the `otheraxis` table). -/
def otheraxis (i : ℕ) : ℕ := [1, 2, 0, 1].getD i 0

/-- Both iterations of the reorder loop (`loopi(OTHERAXISNUM)`): the
counts the driver then reads are the ones of the *last* iteration. -/
def reorderBoth (c : BState) (axis first last : ℕ) : BState × ℕ × ℕ :=
  let d0 := otheraxis axis
  let r0 := reorderAxis c.pos (c.getIds d0) first last
  let c1 := c.setIds d0 r0.1
  let d1 := otheraxis (axis + 1)
  let r1 := reorderAxis c1.pos (c1.getIds d1) first last
  (c1.setIds d1 r1.1, r1.2.1, r1.2.2)

/-- `Partition.first[p]` / `Partition.last[p]` for `p ∈ {ONLEFT, ONRIGHT}`. -/
def Partition.firstOf (b : Partition) (p : ℕ) : Int :=
  if p = ONLEFT then b.firstL else b.firstR

def Partition.lastOf (b : Partition) (p : ℕ) : Int :=
  if p = ONLEFT then b.lastL else b.lastR

def Partition.boxOf (b : Partition) (p : ℕ) : Aabb :=
  if p = ONLEFT then b.boxL else b.boxR

/-- The best-of-three-axes choice of the driver. -/
def bestOf3 (c : BState) (first last : ℕ) : Partition :=
  let best0 := sweep c 0 first last
  let part1 := sweep c 1 first last
  let best1 := if costLt part1.cost best0.cost then part1 else best0
  let part2 := sweep c 2 first last
  if costLt part2.cost best1.cost then part2 else best1

/-- The split body of the inner loop (`// register this node` down to
`currid += 2`): emit the inner node, mark positions, reorder the other
two axes, choose which side to push (`stackLen` is the current number
of deferred segments, used by the ghost `maxstack`).  Returns the new
state, the segment the loop continues with, and the pushed segment. -/
def splitStep (c : BState) (node : Segment) (best : Partition) (stackLen : ℕ) :
    BState × Segment × Segment :=
  let c1 := makenode c node best.axis
  let fL := best.firstL.toNat
  let lL := best.lastL.toNat
  let fR := best.firstR.toNat
  let lR := best.lastR.toNat
  let c2 := markPositions c1 best.axis fL lL fR lR
  let r := reorderBoth c2 best.axis node.first node.last
  let c3 := r.1
  let leftnum := r.2.1
  let rightnum := r.2.2
  let p0 := if rightnum > leftnum then ONLEFT else ONRIGHT
  let p1 := if rightnum > leftnum then ONRIGHT else ONLEFT
  let pushed : Segment :=
    ⟨(best.firstOf p1).toNat, (best.lastOf p1).toNat, c3.currid + p1 + 1, best.boxOf p1⟩
  let cur : Segment :=
    ⟨(best.firstOf p0).toNat, (best.lastOf p0).toNat, c3.currid + p0 + 1, best.boxOf p0⟩
  let c4 := { c3 with
    currid := c3.currid + 2
    maxstack := max c3.maxstack (stackLen + 1)
    pushes := c3.pushes ++ [(pushed.sz, cur.sz)] }
  (c4, cur, pushed)

/-- The inner `for (;;)` loop of `compiler::compile`, processing the
current segment `node`; a completed leaf breaks back to the outer loop,
a split pushes one side (ghost: `maxstack`, `pushes` updated) and
continues with the other.  `fuel` only forces termination; it is spent
one unit per iteration and `none` is returned if it runs out. -/
def innerLoop (fuel : ℕ) (c : BState) (node : Segment) (stack : List Segment) :
    Option (BState × List Segment) :=
  match fuel with
  | 0 => none
  | fuel + 1 =>
    if (node.last : Int) - node.first = 0 then some (makeleaf c node, stack)
    else
      let best := bestOf3 c node.first node.last
      if best.firstL = -1 then some (makeleaf c node, stack)
      else
        let r := splitStep c node best stack.length
        innerLoop fuel r.1 r.2.1 (r.2.2 :: stack)

/-- The outer `while (stacksz)` loop of `compiler::compile`. -/
def outerLoop (fuel : ℕ) (c : BState) (stack : List Segment) : Option BState :=
  match fuel with
  | 0 => none
  | fuel + 1 =>
    match stack with
    | [] => some c
    | seg :: rest =>
      match innerLoop fuel c seg rest with
      | none => none
      | some (c', stack') => outerLoop fuel c' stack'

/-- `growboxes`: every node box is inflated by `1e-6` on all sides. -/
def growboxes (c : BState) : BState :=
  let e := Vec3.const (1/1000000)
  { c with root := c.root.map (fun p =>
      (p.1, { p.2 with box := ⟨p.2.box.pmin.sub e, p.2.box.pmax.add e⟩ })) }

/-- `compiler::compile`: push the root segment `(0, n-1, 0, scenebox)`
(`stacksz = 1`, hence `maxstack` starts at 1), run the loops, then
inflate the boxes.  The fuel `2*n + 2` is shown sufficient below. -/
def compile (c : BState) : Option BState :=
  (outerLoop (2 * c.n + 2) { c with maxstack := max c.maxstack 1 }
      [⟨0, c.n - 1, 0, c.scenebox⟩]).map growboxes

/-- The comparator `sorter<axis>` as a relation on primitive indices:
`centroids[a].v[axis] < centroids[b].v[axis]`, closed into the total
preorder `≤` its deterministic sort produces.

Modelled from the spec: `quicksort` lives in the missing
`base/algorithm.hpp`; §4.2 only requires a deterministic sort ascending
by centroid (stability not required), so a stable insertion sort stands
in for it. -/
def centLe (cents : List Vec3) (a : ℕ) (i j : ℕ) : Prop :=
  (cents.getD i (Vec3.const 0)).get a ≤ (cents.getD j (Vec3.const 0)).get a

instance (cents : List Vec3) (a : ℕ) : DecidableRel (centLe cents a) :=
  fun i j => by unfold centLe; infer_instance

instance (cents : List Vec3) (a : ℕ) : IsTotal ℕ (centLe cents a) :=
  ⟨fun _ _ => le_total _ _⟩

instance (cents : List Vec3) (a : ℕ) : IsTrans ℕ (centLe cents a) :=
  ⟨fun _ _ _ h h' => le_trans h h'⟩

/-- `compiler::injection(soup, primnum)`: per-primitive flags, boxes,
centroids, the scene box, and the three per-axis sorted index
permutations. -/
def injection (cfg : Config) (soup : List Prim) : BState :=
  let primnum := soup.length
  let istri := soup.map Prim.istri
  let boxes := soup.map Prim.getaabb
  let cents := soup.map Prim.centroid
  let scenebox := boxes.foldl Aabb.compose Aabb.empty
  let base := List.range primnum
  { cfg := cfg
    prims := soup
    n := primnum
    istri := istri
    boxes := boxes
    centroids := cents
    ids0 := base.insertionSort (centLe cents 0)
    ids1 := base.insertionSort (centLe cents 1)
    ids2 := base.insertionSort (centLe cents 2)
    pos := List.replicate primnum 0
    scenebox := scenebox
    root := []
    acc := []
    currid := 0
    leafnum := 0
    nodenum := 0
    edges := []
    pushes := []
    leafrecs := []
    maxstack := 0 }

/-- `create(prims, n)`: `NULL` for an empty soup, otherwise injection
followed by compilation.  The returned state carries the intersector's
`root` and `acc` (plus the build statistics the source logs). -/
def create (cfg : Config) (prims : List Prim) : Option BState :=
  if prims.length = 0 then none
  else compile (injection cfg prims)

/-! ## Characterisation of the sweep loop -/

/-- The running left box after `cnt` iterations of the sweep loop:
union (seeded with the inverted empty box) of `boxes[ids[a][first]] …
boxes[ids[a][first+cnt-1]]`. -/
def lbox (c : BState) (a first : ℕ) : ℕ → Aabb
  | 0 => Aabb.empty
  | cnt + 1 => (lbox c a first cnt).compose (c.boxAt (c.idAt a (first + cnt)))

/-- The `alltris` flag after `cnt` iterations. -/
def allTri (c : BState) (a first : ℕ) : ℕ → Bool
  | 0 => true
  | cnt + 1 => allTri c a first cnt && c.istriAt (c.idAt a (first + cnt))

/-- The exact cost the sweep computes for split position `j`
(`larea * n + rarea * (primnum - n)` with `n = j + 1 - first`). -/
def costAt (c : BState) (a first last j : ℕ) : ℚ :=
  (lbox c a first (j + 1 - first)).halfarea * (j + 1 - first : ℕ)
    + (rlbox c a (j + 1) (last - (j + 1))).halfarea
      * ((last + 1 - first) - (j + 1 - first) : ℕ)

/-- The partition record the loop holds after its latest update at
position `jb`. -/
def candAt (c : BState) (a first last jb : ℕ) : Partition :=
  { boxL := lbox c a first (jb + 1 - first)
    boxR := rlbox c a (jb + 1) (last - (jb + 1))
    cost := some (costAt c a first last jb)
    axis := a
    firstL := first
    lastL := jb
    firstR := (jb : Int) + 1
    lastR := last }

/-- The loop state after the first `m` iterations of the sweep over
`[first, last]`. -/
def scanTo (c : BState) (a first last m : ℕ) : SweepSt :=
  ((List.range m).map (fun k => first + k)).foldl
    (sweepStep c a last (last + 1 - first))
    ⟨Aabb.empty, 1, true, Partition.init first last a⟩

theorem scanTo_zero (c : BState) (a first last : ℕ) :
    scanTo c a first last 0 = ⟨Aabb.empty, 1, true, Partition.init first last a⟩ := rfl

theorem scanTo_succ (c : BState) (a first last m : ℕ) :
    scanTo c a first last (m + 1) =
      sweepStep c a last (last + 1 - first) (scanTo c a first last m) (first + m) := by
  unfold scanTo
  rw [List.range_succ, List.map_append, List.foldl_append]
  rfl

theorem sweepScan_eq_scanTo (c : BState) (a first last : ℕ) :
    sweepScan c a first last = scanTo c a first last (last - first) := rfl

/-- After `m` iterations: the running box, population and `alltris`
flag have their closed forms. -/
theorem scanTo_state (c : BState) (a first last : ℕ) :
    ∀ m, (scanTo c a first last m).box = lbox c a first m ∧
      (scanTo c a first last m).npop = m + 1 ∧
      (scanTo c a first last m).alltris = allTri c a first m := by
  intro m
  induction m with
  | zero => exact ⟨rfl, rfl, rfl⟩
  | succ m ih =>
    obtain ⟨hb, hn, ha⟩ := ih
    rw [scanTo_succ]
    unfold sweepStep
    simp only [hb, hn, ha]
    split <;> exact ⟨rfl, rfl, rfl⟩

theorem costGt_none (q : ℚ) : costGt q none = false := rfl

theorem costGt_some_true {q b : ℚ} (h : costGt q (some b) = true) : b < q := by
  simpa [costGt] using h

theorem costGt_some_false {q b : ℚ} (h : costGt q (some b) = false) : q ≤ b := by
  simpa [costGt] using h

/-- After `m ≥ 1` iterations the loop's candidate is `candAt jb` where
`jb` is the *largest* index among the processed split positions whose
cost is minimal: the code updates on `cost ≤ best` (it skips only on
`cost > best`), so later equal-cost positions win. -/
theorem scanTo_part (c : BState) (a first last : ℕ) :
    ∀ m, 1 ≤ m →
      ∃ jb, first ≤ jb ∧ jb < first + m ∧
        (scanTo c a first last m).part = candAt c a first last jb ∧
        (∀ j, first ≤ j → j < first + m →
          costAt c a first last jb ≤ costAt c a first last j) ∧
        (∀ j, jb < j → j < first + m →
          costAt c a first last jb < costAt c a first last j) := by
  intro m
  induction m with
  | zero => omega
  | succ m ih =>
    intro _
    obtain ⟨hb, hn, -⟩ := scanTo_state c a first last m
    have harith : first + m + 1 - first = m + 1 := by omega
    have hcost : (((scanTo c a first last m).box.compose
          (c.boxAt (c.idAt a (first + m)))).halfarea * ((scanTo c a first last m).npop : ℕ)
        + (rlbox c a (first + m + 1) (last - (first + m + 1))).halfarea
          * ((last + 1 - first) - (scanTo c a first last m).npop : ℕ))
        = costAt c a first last (first + m) := by
      rw [hb, hn]
      unfold costAt
      rw [harith]
      rfl
    rcases Nat.eq_zero_or_pos m with hm | hm
    · -- first iteration: the initial cost is `FLT_MAX`, so it updates
      subst hm
      refine ⟨first, le_refl _, by omega, ?_, ?_, ?_⟩
      · rw [scanTo_succ]
        unfold sweepStep
        rw [scanTo_zero]
        simp only [Partition.init, costGt_none, Bool.false_eq_true, if_false]
        rw [scanTo_zero] at hcost
        simp only [Partition.init] at hcost
        unfold candAt
        simp only [Nat.add_zero] at hcost ⊢
        rw [hcost]
        have h1 : first + 1 - first = 1 := by omega
        unfold lbox costAt
        rw [h1]
        rfl
      · intro j h1 h2
        have : j = first := by omega
        subst this
        exact le_refl _
      · intro j h1 h2
        omega
    · obtain ⟨jb, hjb1, hjb2, hpart, hmin, hlast⟩ := ih hm
      rw [scanTo_succ]
      unfold sweepStep
      simp only [hn, hpart]
      have hcost' : (((scanTo c a first last m).box.compose
            (c.boxAt (c.idAt a (first + m)))).halfarea * ((m + 1 : ℕ) : ℚ)
          + (rlbox c a (first + m + 1) (last - (first + m + 1))).halfarea
            * ((last + 1 - first) - (m + 1) : ℕ))
          = costAt c a first last (first + m) := by
        rw [hn] at hcost
        exact hcost
      rcases hgt : costGt (((scanTo c a first last m).box.compose
            (c.boxAt (c.idAt a (first + m)))).halfarea * ((m + 1 : ℕ) : ℚ)
          + (rlbox c a (first + m + 1) (last - (first + m + 1))).halfarea
            * ((last + 1 - first) - (m + 1) : ℕ))
          ((candAt c a first last jb).cost) with _ | _
      · -- cost ≤ best: update; the new candidate is position `first+m`
        simp only [hgt, Bool.false_eq_true, if_false]
        have hle : costAt c a first last (first + m) ≤ costAt c a first last jb := by
          have := costGt_some_false hgt
          rwa [hcost'] at this
        refine ⟨first + m, by omega, by omega, ?_, ?_, ?_⟩
        · have hcost2 := hcost'
          rw [hb] at hcost2
          simp only [candAt, harith, hb, hcost2]
          rfl
        · intro j h1 h2
          rcases Nat.lt_or_ge j (first + m) with h3 | h3
          · exact le_trans hle (hmin j h1 h3)
          · have : j = first + m := by omega
            subst this
            exact le_refl _
        · intro j h1 h2
          omega
      · -- cost > best: keep the old candidate
        simp only [hgt, if_true]
        refine ⟨jb, hjb1, by omega, rfl, ?_, ?_⟩
        · intro j h1 h2
          rcases Nat.lt_or_ge j (first + m) with h3 | h3
          · exact hmin j h1 h3
          · have : j = first + m := by omega
            subst this
            have := costGt_some_true hgt
            rw [hcost'] at this
            exact le_of_lt this
        · intro j h1 h2
          rcases Nat.lt_or_ge j (first + m) with h3 | h3
          · exact hlast j h1 h3
          · have : j = first + m := by omega
            subst this
            have := costGt_some_true hgt
            rw [hcost'] at this
            exact this

/-- `allTri` is the conjunction of the `istri` flags over the scanned
positions. -/
theorem allTri_iff (c : BState) (a first : ℕ) :
    ∀ m, allTri c a first m = true ↔
      ∀ k, k < m → c.istriAt (c.idAt a (first + k)) = true := by
  intro m
  induction m with
  | zero => simp [allTri]
  | succ m ih =>
    unfold allTri
    rw [Bool.and_eq_true, ih]
    constructor
    · rintro ⟨h1, h2⟩ k hk
      rcases Nat.lt_or_ge k m with h | h
      · exact h1 k h
      · have : k = m := by omega
        subst this
        exact h2
    · intro h
      exact ⟨fun k hk => h k (by omega), h m (by omega)⟩

/-- The final loop state of the sweep, packaged. -/
theorem sweepScan_part (c : BState) (a first last : ℕ) (h : first < last) :
    ∃ jb, first ≤ jb ∧ jb < last ∧
      (sweepScan c a first last).part = candAt c a first last jb ∧
      (∀ j, first ≤ j → j < last → costAt c a first last jb ≤ costAt c a first last j) ∧
      (∀ j, jb < j → j < last → costAt c a first last jb < costAt c a first last j) := by
  rw [sweepScan_eq_scanTo]
  obtain ⟨jb, h1, h2, h3, h4, h5⟩ := scanTo_part c a first last (last - first) (by omega)
  exact ⟨jb, h1, by omega, h3,
    fun j hj1 hj2 => h4 j hj1 (by omega),
    fun j hj1 hj2 => h5 j hj1 (by omega)⟩

/-- The box and the exact cost of the "all primitives in one leaf"
alternative: the sentinel partition `sweep` substitutes when the leaf
wins. -/
def leafSentinel (c : BState) (a first last : ℕ) : Partition :=
  let box := (lbox c a first (last - first)).compose (c.boxAt (c.idAt a last))
  { boxL := box
    boxR := box
    cost := some ((c.cfg.sahintersectioncost : ℚ) * (last + 1 - first : ℕ) * box.halfarea)
    axis := a
    firstL := -1
    lastL := -1
    firstR := -1
    lastR := -1 }

/-! ## Claim theorems: C9, C2, C8 -/

/-- C9: `create` with zero primitives returns the null intersector
(`None`), not an error. -/
theorem claim_C9 (cfg : Config) (prims : List Prim) (h : prims.length = 0) :
    create cfg prims = none := by
  unfold create
  rw [if_pos h]

theorem claim_C9_witness : ([] : List Prim).length = 0 ∧ create defaultConfig [] = none :=
  ⟨rfl, claim_C9 defaultConfig [] rfl⟩

/-- Point-shaped sub-intersector primitive used in concrete runs. -/
def pointPrim (x y z : ℚ) : Prim := Prim.isec ⟨x, y, z⟩ ⟨x, y, z⟩

/-- Three collinear point primitives: both split positions of the
x-axis sweep have cost 0. -/
def tieInput : List Prim := [pointPrim 0 0 0, pointPrim 1 0 0, pointPrim 2 0 0]

def tieState : BState := injection defaultConfig tieInput

/-- C2 counterexample: on `tieState`, split positions 0 and 1 of the
x-axis sweep over `[0, 2]` have equal cost, yet the sweep keeps
position 1 — the *larger* index — because the code updates on
`cost ≤ best` (it skips only on `cost > best`), so there is no
strict-less-than update rule and no left bias. -/
theorem claim_C2_counterexample :
    costAt tieState 0 0 2 0 = costAt tieState 0 0 2 1 ∧
    (sweep tieState 0 0 2).lastL = 1 ∧ ((1 : Int) ≠ 0) := by
  refine ⟨by decide, by decide, by decide⟩

/-- C2 amended: during the SAH sweep on any axis over any range
`[first, last]` with `last > first`, the best split candidate is
updated whenever the candidate's cost is less than *or equal to* the
current best cost; consequently among equal-cost split positions the
one with the *largest* index `j` is kept (right bias): the final
candidate's cost is minimal and every later position costs strictly
more. -/
theorem claim_C2_amended (c : BState) (a first last : ℕ) (h : first < last) :
    ∃ jb, first ≤ jb ∧ jb < last ∧
      (sweepScan c a first last).part = candAt c a first last jb ∧
      (∀ j, first ≤ j → j < last → costAt c a first last jb ≤ costAt c a first last j) ∧
      (∀ j, jb < j → j < last → costAt c a first last jb < costAt c a first last j) :=
  sweepScan_part c a first last h

theorem claim_C2_amended_witness :
    (0 < 2) ∧
    ∃ jb, 0 ≤ jb ∧ jb < 2 ∧
      (sweepScan tieState 0 0 2).part = candAt tieState 0 0 2 jb ∧
      (∀ j, 0 ≤ j → j < 2 → costAt tieState 0 0 2 jb ≤ costAt tieState 0 0 2 j) ∧
      (∀ j, jb < j → j < 2 → costAt tieState 0 0 2 jb < costAt tieState 0 0 2 j) :=
  ⟨by decide, claim_C2_amended tieState 0 0 2 (by decide)⟩

/-- C8: for a multi-primitive range of triangles only, the sweep
replaces its split candidate by the leaf sentinel (both ranges
`(-1, -1)`, both boxes the range's union box, cost the leaf cost) iff
the primitive count fits `maxprimitivenum` and
`C_isect·primnum·halfarea(full) ≤ C_isect·best_sweep_cost +
C_trav·halfarea(full)`; and a range containing a sub-intersector
returns the split candidate of the scan loop unchanged. -/
theorem claim_C8 (c : BState) (a first last : ℕ) (hfl : first < last) :
    ((∀ j, first ≤ j → j ≤ last → c.istriAt (c.idAt a j) = true) →
      (sweep c a first last = leafSentinel c a first last ↔
        (last + 1 - first ≤ c.cfg.maxprimitivenum ∧
          ∃ q, (sweepScan c a first last).part.cost = some q ∧
            (c.cfg.sahintersectioncost : ℚ) * ((last + 1 - first : ℕ) : ℚ)
                * ((lbox c a first (last - first)).compose
                    (c.boxAt (c.idAt a last))).halfarea
              ≤ (c.cfg.sahintersectioncost : ℚ) * q
                + (c.cfg.sahtraversalcost : ℚ)
                  * ((lbox c a first (last - first)).compose
                      (c.boxAt (c.idAt a last))).halfarea))) ∧
    ((∃ j, first ≤ j ∧ j ≤ last ∧ c.istriAt (c.idAt a j) = false) →
      sweep c a first last = (sweepScan c a first last).part) := by
  obtain ⟨jb, hjb1, hjb2, hpart, hmin, hlast⟩ := sweepScan_part c a first last hfl
  obtain ⟨hbox, hnpop, htris⟩ := scanTo_state c a first last (last - first)
  rw [← sweepScan_eq_scanTo] at hbox htris
  constructor
  · intro hAll
    have htri : (sweepScan c a first last).alltris = true := by
      rw [htris, allTri_iff]
      intro k hk
      exact hAll (first + k) (by omega) (by omega)
    have htrilast : c.istriAt (c.idAt a last) = true :=
      hAll last (by omega) (le_refl _)
    simp only [sweep]
    rw [htri, htrilast]
    simp only [Bool.and_self, Bool.not_true, Bool.false_eq_true, if_false]
    rw [hbox, hpart]
    by_cases hmp : last + 1 - first > c.cfg.maxprimitivenum
    · rw [if_pos hmp]
      constructor
      · intro hEq
        exfalso
        have := congrArg Partition.firstL hEq
        simp only [candAt, leafSentinel] at this
        omega
      · intro ⟨h1, _⟩
        omega
    · rw [if_neg hmp]
      simp only [candAt, Option.map_some']
      by_cases hle : costLe ((c.cfg.sahintersectioncost : ℚ) * ((last + 1 - first : ℕ) : ℚ)
          * ((lbox c a first (last - first)).compose (c.boxAt (c.idAt a last))).halfarea)
          (some (costAt c a first last jb * (c.cfg.sahintersectioncost : ℚ)
            + (c.cfg.sahtraversalcost : ℚ)
              * ((lbox c a first (last - first)).compose
                  (c.boxAt (c.idAt a last))).halfarea)) = true
      · rw [if_pos hle]
        simp only [costLe, decide_eq_true_eq] at hle
        constructor
        · intro _
          refine ⟨by omega, costAt c a first last jb, rfl, ?_⟩
          calc (c.cfg.sahintersectioncost : ℚ) * ((last + 1 - first : ℕ) : ℚ)
              * ((lbox c a first (last - first)).compose (c.boxAt (c.idAt a last))).halfarea
              ≤ costAt c a first last jb * (c.cfg.sahintersectioncost : ℚ)
                + (c.cfg.sahtraversalcost : ℚ)
                  * ((lbox c a first (last - first)).compose
                      (c.boxAt (c.idAt a last))).halfarea := hle
            _ = (c.cfg.sahintersectioncost : ℚ) * costAt c a first last jb
                + (c.cfg.sahtraversalcost : ℚ)
                  * ((lbox c a first (last - first)).compose
                      (c.boxAt (c.idAt a last))).halfarea := by ring
        · intro _
          rfl
      · rw [if_neg hle]
        simp only [costLe, decide_eq_true_eq] at hle
        push_neg at hle
        constructor
        · intro hEq
          exfalso
          have := congrArg Partition.firstL hEq
          simp only [leafSentinel] at this
          omega
        · rintro ⟨-, q, hq, hineq⟩
          exfalso
          have hq' : q = costAt c a first last jb := (Option.some.inj hq).symm
          subst hq'
          have : costAt c a first last jb * (c.cfg.sahintersectioncost : ℚ)
              + (c.cfg.sahtraversalcost : ℚ)
                * ((lbox c a first (last - first)).compose
                    (c.boxAt (c.idAt a last))).halfarea
              = (c.cfg.sahintersectioncost : ℚ) * costAt c a first last jb
              + (c.cfg.sahtraversalcost : ℚ)
                * ((lbox c a first (last - first)).compose
                    (c.boxAt (c.idAt a last))).halfarea := by ring
          rw [this] at hle
          exact absurd hineq (not_le.mpr hle)
  · rintro ⟨j, hj1, hj2, hj3⟩
    simp only [sweep]
    rcases Nat.lt_or_ge j last with hl | hl
    · have hfalse : (sweepScan c a first last).alltris = false := by
        rw [htris]
        rcases hh : allTri c a first (last - first) with _ | _
        · rfl
        · exfalso
          rw [allTri_iff] at hh
          have := hh (j - first) (by omega)
          rw [show first + (j - first) = j by omega] at this
          rw [this] at hj3
          exact Bool.noConfusion hj3
      rw [hfalse]
      rfl
    · have : j = last := by omega
      subst this
      rw [hj3]
      simp

theorem claim_C8_witness :
    (0 < 2) ∧
    (((∀ j, 0 ≤ j → j ≤ 2 → tieState.istriAt (tieState.idAt 0 j) = true) →
      (sweep tieState 0 0 2 = leafSentinel tieState 0 0 2 ↔
        (2 + 1 - 0 ≤ tieState.cfg.maxprimitivenum ∧
          ∃ q, (sweepScan tieState 0 0 2).part.cost = some q ∧
            (tieState.cfg.sahintersectioncost : ℚ) * ((2 + 1 - 0 : ℕ) : ℚ)
                * ((lbox tieState 0 0 (2 - 0)).compose
                    (tieState.boxAt (tieState.idAt 0 2))).halfarea
              ≤ (tieState.cfg.sahintersectioncost : ℚ) * q
                + (tieState.cfg.sahtraversalcost : ℚ)
                  * ((lbox tieState 0 0 (2 - 0)).compose
                      (tieState.boxAt (tieState.idAt 0 2))).halfarea))) ∧
    ((∃ j, 0 ≤ j ∧ j ≤ 2 ∧ tieState.istriAt (tieState.idAt 0 j) = false) →
      sweep tieState 0 0 2 = (sweepScan tieState 0 0 2).part)) :=
  ⟨by decide, claim_C8 tieState 0 0 2 (by decide)⟩

/-! ## Concrete counterexamples for the layout and push-order claims -/

/-- Five point sub-intersectors: the root splits 2 | 3 on the x axis,
the driver pushes the 3-wide right side and continues with the 2-wide
left side. -/
def layoutInput : List Prim :=
  [pointPrim 0 0 0, pointPrim 1 1 1, pointPrim 10 0 1,
   pointPrim 11 1 0, pointPrim 12 0 1]

/-- The final compiler state of the run on `layoutInput`. -/
def layoutRun : BState :=
  (create defaultConfig layoutInput).getD (injection defaultConfig layoutInput)

/-- C1 counterexample: on `layoutInput`, `create` emits the inner node
at id 1 with stored offset 2 and children at slots 3 and 4, so its left
child is *not* at id + 1; and the root's stored offset is 1, not
`> 1` — the actual layout is `left = id + offset`,
`right = id + offset + 1`. -/
theorem claim_C1_counterexample :
    create defaultConfig layoutInput = some layoutRun ∧
    (1, 3, 4) ∈ layoutRun.edges ∧
    (layoutRun.getNode 1).map Node.data = some (NodeData.inner 0 2) ∧
    (3 : ℕ) ≠ 1 + 1 ∧
    (0, 1, 2) ∈ layoutRun.edges ∧
    (layoutRun.getNode 0).map Node.data = some (NodeData.inner 0 1) ∧
    ¬ ((1 : ℕ) > 1) := by
  refine ⟨by decide, by decide, by decide, by decide, by decide, by decide, by decide⟩

/-- C3 counterexample: on `layoutInput`, the root emission pushes the
side with 3 primitives and continues with the side with 2 — the driver
pushes the *larger* side, not the smaller one. -/
theorem claim_C3_counterexample :
    create defaultConfig layoutInput = some layoutRun ∧
    (3, 2) ∈ layoutRun.pushes ∧ ¬ ((3 : ℕ) < 2) := by
  refine ⟨by decide, by decide, by decide⟩

/-! ## Shape of sweep and best-of-three results -/

/-- Every sweep over a multi-primitive range returns either a genuine
split — ranges `(first, jb)` / `(jb+1, last)` for some position `jb`,
boxes the prefix/suffix unions on the swept axis — or the leaf
sentinel, and the latter only when the whole range is triangles and
fits `maxprimitivenum`. -/
theorem sweep_shape (c : BState) (a first last : ℕ) (hfl : first < last) :
    (∃ jb, first ≤ jb ∧ jb < last ∧
      (sweep c a first last).axis = a ∧
      (sweep c a first last).firstL = (first : Int) ∧
      (sweep c a first last).lastL = (jb : Int) ∧
      (sweep c a first last).firstR = (jb : Int) + 1 ∧
      (sweep c a first last).lastR = (last : Int) ∧
      (sweep c a first last).boxL = lbox c a first (jb + 1 - first) ∧
      (sweep c a first last).boxR = rlbox c a (jb + 1) (last - (jb + 1)))
    ∨ ((sweep c a first last).firstL = -1 ∧
        allTri c a first (last - first) = true ∧
        c.istriAt (c.idAt a last) = true ∧
        last + 1 - first ≤ c.cfg.maxprimitivenum) := by
  obtain ⟨jb, hjb1, hjb2, hpart, -, -⟩ := sweepScan_part c a first last hfl
  simp only [sweep]
  rcases htri : (sweepScan c a first last).alltris && c.istriAt (c.idAt a last)
    with _ | _
  · left
    simp only [Bool.not_false, if_true]
    rw [hpart]
    exact ⟨jb, hjb1, hjb2, rfl, rfl, rfl, rfl, rfl, rfl, rfl⟩
  · simp only [Bool.not_true, Bool.false_eq_true, if_false]
    by_cases hmp : last + 1 - first > c.cfg.maxprimitivenum
    · left
      rw [if_pos hmp, hpart]
      exact ⟨jb, hjb1, hjb2, rfl, rfl, rfl, rfl, rfl, rfl, rfl⟩
    · rw [if_neg hmp]
      rcases Bool.and_eq_true _ _ |>.mp htri with ⟨ht1, ht2⟩
      obtain ⟨-, -, htris⟩ := scanTo_state c a first last (last - first)
      rw [← sweepScan_eq_scanTo] at htris
      split
      · right
        refine ⟨rfl, ?_, ht2, by omega⟩
        rw [← htris]
        exact ht1
      · left
        rw [hpart]
        exact ⟨jb, hjb1, hjb2, rfl, rfl, rfl, rfl, rfl, rfl, rfl⟩

/-- Shape of the driver's best-of-three choice: a split on one of the
three axes, or a leaf sentinel coming from one of the three axes. -/
theorem bestOf3_shape (c : BState) (first last : ℕ) (hfl : first < last) :
    (∃ a jb, a < 3 ∧ first ≤ jb ∧ jb < last ∧
      (bestOf3 c first last).axis = a ∧
      (bestOf3 c first last).firstL = (first : Int) ∧
      (bestOf3 c first last).lastL = (jb : Int) ∧
      (bestOf3 c first last).firstR = (jb : Int) + 1 ∧
      (bestOf3 c first last).lastR = (last : Int) ∧
      (bestOf3 c first last).boxL = lbox c a first (jb + 1 - first) ∧
      (bestOf3 c first last).boxR = rlbox c a (jb + 1) (last - (jb + 1)))
    ∨ (∃ a, a < 3 ∧
        (bestOf3 c first last).firstL = -1 ∧
        allTri c a first (last - first) = true ∧
        c.istriAt (c.idAt a last) = true ∧
        last + 1 - first ≤ c.cfg.maxprimitivenum) := by
  have h0 := sweep_shape c 0 first last hfl
  have h1 := sweep_shape c 1 first last hfl
  have h2 := sweep_shape c 2 first last hfl
  simp only [bestOf3]
  split <;> split
  · rcases h2 with ⟨jb, hj1, hj2, h⟩ | h
    · exact Or.inl ⟨2, jb, by omega, hj1, hj2, h⟩
    · exact Or.inr ⟨2, by omega, h⟩
  · rcases h1 with ⟨jb, hj1, hj2, h⟩ | h
    · exact Or.inl ⟨1, jb, by omega, hj1, hj2, h⟩
    · exact Or.inr ⟨1, by omega, h⟩
  · rcases h2 with ⟨jb, hj1, hj2, h⟩ | h
    · exact Or.inl ⟨2, jb, by omega, hj1, hj2, h⟩
    · exact Or.inr ⟨2, by omega, h⟩
  · rcases h0 with ⟨jb, hj1, hj2, h⟩ | h
    · exact Or.inl ⟨0, jb, by omega, hj1, hj2, h⟩
    · exact Or.inr ⟨0, by omega, h⟩

/-! ## Driver bookkeeping: validity, fuel, node and leaf counts -/

/-- A well-formed work item relative to a primitive count `n`. -/
def ValidSeg (n : ℕ) (s : Segment) : Prop := s.first ≤ s.last ∧ s.last < n

instance (n : ℕ) : DecidablePred (ValidSeg n) := fun s => by
  unfold ValidSeg; infer_instance

/-- `Σ (2·sz - 1)` over a stack: the number of nodes its segments will
still emit. -/
def μs (stack : List Segment) : ℕ := (stack.map (fun s => 2 * s.sz - 1)).sum

/-- `Σ sz` over a stack. -/
def σs (stack : List Segment) : ℕ := (stack.map Segment.sz).sum

theorem μs_nil : μs [] = 0 := rfl

theorem μs_cons (s : Segment) (t : List Segment) :
    μs (s :: t) = (2 * s.sz - 1) + μs t := by simp [μs]

theorem σs_nil : σs [] = 0 := rfl

theorem σs_cons (s : Segment) (t : List Segment) :
    σs (s :: t) = s.sz + σs t := by simp [σs]

theorem makeleaf_n (c : BState) (s : Segment) : (makeleaf c s).n = c.n := by
  simp only [makeleaf]; split <;> rfl

theorem makeleaf_cfg (c : BState) (s : Segment) : (makeleaf c s).cfg = c.cfg := by
  simp only [makeleaf]; split <;> rfl

theorem makeleaf_nodenum (c : BState) (s : Segment) :
    (makeleaf c s).nodenum = c.nodenum + 1 := by
  simp only [makeleaf]; split <;> rfl

theorem makeleaf_leafnum (c : BState) (s : Segment) :
    (makeleaf c s).leafnum = c.leafnum + 1 := by
  simp only [makeleaf]; split <;> rfl

theorem setIds_shape (c : BState) (a : ℕ) (l : List ℕ) :
    ∃ i0 i1 i2, c.setIds a l = { c with ids0 := i0, ids1 := i1, ids2 := i2 } := by
  unfold BState.setIds
  rcases a with _ | _ | a <;> exact ⟨_, _, _, rfl⟩

theorem reorderBoth_shape (c : BState) (axis f l : ℕ) :
    ∃ i0 i1 i2, (reorderBoth c axis f l).1 =
      { c with ids0 := i0, ids1 := i1, ids2 := i2 } := by
  simp only [reorderBoth]
  obtain ⟨a0, a1, a2, h1⟩ := setIds_shape c (otheraxis axis)
    (reorderAxis c.pos (c.getIds (otheraxis axis)) f l).1
  rw [h1]
  obtain ⟨b0, b1, b2, h2⟩ := setIds_shape
    ({ c with ids0 := a0, ids1 := a1, ids2 := a2 }) (otheraxis (axis + 1))
    ((reorderAxis ({ c with ids0 := a0, ids1 := a1, ids2 := a2 } : BState).pos
      (({ c with ids0 := a0, ids1 := a1, ids2 := a2 } : BState).getIds (otheraxis (axis + 1)))
      f l).1)
  rw [h2]
  exact ⟨b0, b1, b2, rfl⟩

theorem firstOf_left (b : Partition) : b.firstOf ONLEFT = b.firstL := rfl

theorem firstOf_right (b : Partition) : b.firstOf ONRIGHT = b.firstR := rfl

theorem lastOf_left (b : Partition) : b.lastOf ONLEFT = b.lastL := rfl

theorem lastOf_right (b : Partition) : b.lastOf ONRIGHT = b.lastR := rfl

theorem boxOf_left (b : Partition) : b.boxOf ONLEFT = b.boxL := rfl

theorem boxOf_right (b : Partition) : b.boxOf ONRIGHT = b.boxR := rfl

theorem reorderBoth_n (c : BState) (axis f l : ℕ) :
    (reorderBoth c axis f l).1.n = c.n := by
  obtain ⟨i0, i1, i2, h⟩ := reorderBoth_shape c axis f l
  rw [h]

theorem reorderBoth_cfg (c : BState) (axis f l : ℕ) :
    (reorderBoth c axis f l).1.cfg = c.cfg := by
  obtain ⟨i0, i1, i2, h⟩ := reorderBoth_shape c axis f l
  rw [h]

theorem reorderBoth_nodenum (c : BState) (axis f l : ℕ) :
    (reorderBoth c axis f l).1.nodenum = c.nodenum := by
  obtain ⟨i0, i1, i2, h⟩ := reorderBoth_shape c axis f l
  rw [h]

theorem reorderBoth_leafnum (c : BState) (axis f l : ℕ) :
    (reorderBoth c axis f l).1.leafnum = c.leafnum := by
  obtain ⟨i0, i1, i2, h⟩ := reorderBoth_shape c axis f l
  rw [h]

/-- What `splitStep` does to the counters, and the ranges of the two
segments it returns: the continued and pushed segments carry the two
halves `(f, jb)` and `(jb+1, l)` of the split, in one order or the
other. -/
theorem splitStep_facts (c : BState) (node : Segment) (best : Partition) (L : ℕ)
    (f jb l : ℕ)
    (hfL : best.firstL = (f : Int)) (hlL : best.lastL = (jb : Int))
    (hfR : best.firstR = (jb : Int) + 1) (hlR : best.lastR = (l : Int)) :
    (splitStep c node best L).1.n = c.n ∧
    (splitStep c node best L).1.cfg = c.cfg ∧
    (splitStep c node best L).1.nodenum = c.nodenum + 1 ∧
    (splitStep c node best L).1.leafnum = c.leafnum ∧
    (((splitStep c node best L).2.1.first = f ∧ (splitStep c node best L).2.1.last = jb ∧
      (splitStep c node best L).2.2.first = jb + 1 ∧ (splitStep c node best L).2.2.last = l) ∨
     ((splitStep c node best L).2.1.first = jb + 1 ∧ (splitStep c node best L).2.1.last = l ∧
      (splitStep c node best L).2.2.first = f ∧ (splitStep c node best L).2.2.last = jb)) := by
  refine ⟨?_, ?_, ?_, ?_, ?_⟩
  · show (reorderBoth _ _ _ _).1.n = c.n
    rw [reorderBoth_n]
    rfl
  · show (reorderBoth _ _ _ _).1.cfg = c.cfg
    rw [reorderBoth_cfg]
    rfl
  · show (reorderBoth _ _ _ _).1.nodenum = c.nodenum + 1
    rw [reorderBoth_nodenum]
    rfl
  · show (reorderBoth _ _ _ _).1.leafnum = c.leafnum
    rw [reorderBoth_leafnum]
    rfl
  · simp only [splitStep]
    by_cases hlr : (reorderBoth (markPositions (makenode c node best.axis) best.axis
        best.firstL.toNat best.lastL.toNat best.firstR.toNat best.lastR.toNat)
        best.axis node.first node.last).2.2 >
      (reorderBoth (markPositions (makenode c node best.axis) best.axis
        best.firstL.toNat best.lastL.toNat best.firstR.toNat best.lastR.toNat)
        best.axis node.first node.last).2.1
    · left
      rw [if_pos hlr, if_pos hlr]
      refine ⟨?_, ?_, ?_, ?_⟩ <;>
        simp only [firstOf_left, firstOf_right, lastOf_left, lastOf_right, hfL, hlL, hfR, hlR] <;>
        omega
    · right
      rw [if_neg hlr, if_neg hlr]
      refine ⟨?_, ?_, ?_, ?_⟩ <;>
        simp only [firstOf_left, firstOf_right, lastOf_left, lastOf_right, hfL, hlL, hfR, hlR] <;>
        omega

/-- Fuel sufficiency, segment validity and node/leaf accounting for the
inner loop: one unit of fuel per emitted node suffices; the quantity
`nodenum + Σ(2·sz-1)` over live segments never increases and is
conserved when `maxprimitivenum = 1` (no multi-primitive leaf can be
emitted then); `leafnum + Σ sz` likewise with `n`. -/
theorem innerLite : ∀ fuel : ℕ, ∀ c : BState, ∀ cur : Segment, ∀ stack : List Segment,
    ValidSeg c.n cur → (∀ s ∈ stack, ValidSeg c.n s) →
    2 * cur.sz - 1 ≤ fuel →
    ∃ c' stack', innerLoop fuel c cur stack = some (c', stack') ∧
      c'.n = c.n ∧ c'.cfg = c.cfg ∧
      (∀ s ∈ stack', ValidSeg c'.n s) ∧
      stack'.length + μs stack' + 1 ≤ stack.length + (2 * cur.sz - 1) + μs stack ∧
      c'.nodenum + μs stack' ≤ c.nodenum + (2 * cur.sz - 1) + μs stack ∧
      c'.leafnum + σs stack' ≤ c.leafnum + cur.sz + σs stack ∧
      (c.cfg.maxprimitivenum = 1 →
        c'.nodenum + μs stack' = c.nodenum + (2 * cur.sz - 1) + μs stack ∧
        c'.leafnum + σs stack' = c.leafnum + cur.sz + σs stack) := by
  intro fuel
  induction fuel with
  | zero =>
    intro c cur stack hvc hvs hfuel
    obtain ⟨h1, h2⟩ := hvc
    exfalso
    have : 1 ≤ cur.sz := by unfold Segment.sz; omega
    omega
  | succ fuel ih =>
    intro c cur stack hvc hvs hfuel
    obtain ⟨hc1, hc2⟩ := hvc
    have hsz1 : 1 ≤ cur.sz := by unfold Segment.sz; omega
    simp only [innerLoop]
    by_cases hone : (cur.last : Int) - cur.first = 0
    · -- single-primitive leaf
      rw [if_pos hone]
      have hsz : cur.sz = 1 := by unfold Segment.sz; omega
      refine ⟨makeleaf c cur, stack, rfl, makeleaf_n c cur, makeleaf_cfg c cur, ?_, ?_, ?_, ?_, ?_⟩
      · rw [makeleaf_n]; exact hvs
      · omega
      · rw [makeleaf_nodenum, hsz]
      · rw [makeleaf_leafnum, hsz]
      · intro _
        rw [makeleaf_nodenum, makeleaf_leafnum, hsz]
        omega
    · rw [if_neg hone]
      have hfl : cur.first < cur.last := by omega
      have hsz2 : 2 ≤ cur.sz := by unfold Segment.sz; omega
      rcases bestOf3_shape c cur.first cur.last hfl with
        ⟨A, jb, hA3, hjb1, hjb2, hax, hfL, hlL, hfR, hlR, hbL, hbR⟩ | ⟨A, hA3, hsf, -, -, hmp⟩
      · -- genuine split
        have hsent : ¬ (bestOf3 c cur.first cur.last).firstL = -1 := by
          rw [hfL]; omega
        rw [if_neg hsent]
        obtain ⟨hn4, hcfg4, hnode4, hleaf4, hranges⟩ :=
          splitStep_facts c cur (bestOf3 c cur.first cur.last) stack.length
            cur.first jb cur.last hfL hlL hfR hlR
        have hszA : (splitStep c cur (bestOf3 c cur.first cur.last) stack.length).2.1.sz
            + (splitStep c cur (bestOf3 c cur.first cur.last) stack.length).2.2.sz = cur.sz ∧
            1 ≤ (splitStep c cur (bestOf3 c cur.first cur.last) stack.length).2.1.sz ∧
            1 ≤ (splitStep c cur (bestOf3 c cur.first cur.last) stack.length).2.2.sz := by
          unfold Segment.sz
          rcases hranges with ⟨h1, h2, h3, h4⟩ | ⟨h1, h2, h3, h4⟩ <;>
            rw [h1, h2, h3, h4] <;> omega
        obtain ⟨hs1, hs2, hs3⟩ := hszA
        have hv1 : ValidSeg (splitStep c cur
            (bestOf3 c cur.first cur.last) stack.length).1.n
            (splitStep c cur (bestOf3 c cur.first cur.last) stack.length).2.1 := by
          rw [hn4]
          unfold ValidSeg
          rcases hranges with ⟨h1, h2, -, -⟩ | ⟨h1, h2, -, -⟩ <;>
            rw [h1, h2] <;> omega
        have hv2 : ∀ s ∈ (splitStep c cur (bestOf3 c cur.first cur.last) stack.length).2.2
            :: stack, ValidSeg (splitStep c cur
              (bestOf3 c cur.first cur.last) stack.length).1.n s := by
          intro s hs
          rw [hn4]
          rcases List.mem_cons.mp hs with rfl | hs
          · unfold ValidSeg
            rcases hranges with ⟨-, -, h3, h4⟩ | ⟨-, -, h3, h4⟩ <;>
              rw [h3, h4] <;> omega
          · exact hvs s hs
        have hfuel2 : 2 * (splitStep c cur
            (bestOf3 c cur.first cur.last) stack.length).2.1.sz - 1 ≤ fuel := by
          omega
        obtain ⟨c', stack', hrun, hn', hcfg', hvs', hlen', hnode', hleaf', heq'⟩ :=
          ih (splitStep c cur (bestOf3 c cur.first cur.last) stack.length).1
            (splitStep c cur (bestOf3 c cur.first cur.last) stack.length).2.1
            ((splitStep c cur (bestOf3 c cur.first cur.last) stack.length).2.2 :: stack)
            hv1 hv2 hfuel2
        rw [μs_cons] at hlen' hnode'
        rw [σs_cons] at hleaf'
        rw [hnode4] at hnode'
        rw [hleaf4] at hleaf'
        refine ⟨c', stack', hrun, ?_, ?_, hvs', ?_, ?_, ?_, ?_⟩
        · rw [hn', hn4]
        · rw [hcfg', hcfg4]
        · simp only [List.length_cons] at hlen'
          omega
        · omega
        · omega
        · intro hm1
          have hm4 : (splitStep c cur
              (bestOf3 c cur.first cur.last) stack.length).1.cfg.maxprimitivenum = 1 := by
            rw [hcfg4]; exact hm1
          obtain ⟨he1, he2⟩ := heq' hm4
          rw [μs_cons, hnode4] at he1
          rw [σs_cons, hleaf4] at he2
          constructor <;> omega
      · -- sentinel leaf over a multi-primitive range
        have hsent : (bestOf3 c cur.first cur.last).firstL = -1 := hsf
        rw [if_pos hsent]
        refine ⟨makeleaf c cur, stack, rfl, makeleaf_n c cur, makeleaf_cfg c cur, ?_, ?_, ?_, ?_, ?_⟩
        · rw [makeleaf_n]; exact hvs
        · omega
        · rw [makeleaf_nodenum]; omega
        · rw [makeleaf_leafnum]; unfold Segment.sz; omega
        · intro hmp1
          exfalso
          rw [hmp1] at hmp
          unfold Segment.sz at hsz2
          omega

/-- Fuel sufficiency and node/leaf accounting for the outer loop. -/
theorem outerLite : ∀ fuel : ℕ, ∀ c : BState, ∀ stack : List Segment,
    (∀ s ∈ stack, ValidSeg c.n s) →
    μs stack + stack.length + 1 ≤ fuel →
    ∃ c', outerLoop fuel c stack = some c' ∧
      c'.n = c.n ∧ c'.cfg = c.cfg ∧
      c'.nodenum ≤ c.nodenum + μs stack ∧
      c'.leafnum ≤ c.leafnum + σs stack ∧
      (c.cfg.maxprimitivenum = 1 →
        c'.nodenum = c.nodenum + μs stack ∧
        c'.leafnum = c.leafnum + σs stack) := by
  intro fuel
  induction fuel with
  | zero =>
    intro c stack hv hf
    exfalso
    omega
  | succ fuel ih =>
    intro c stack hv hf
    rcases stack with _ | ⟨seg, rest⟩
    · simp only [outerLoop]
      rw [μs_nil, σs_nil]
      exact ⟨c, rfl, rfl, rfl, by omega, by omega, fun _ => ⟨by omega, by omega⟩⟩
    · simp only [outerLoop]
      rw [μs_cons] at hf
      simp only [List.length_cons] at hf
      have hseg := hv seg (List.mem_cons_self seg rest)
      have hrest : ∀ s ∈ rest, ValidSeg c.n s := fun s hs => hv s (List.mem_cons_of_mem _ hs)
      obtain ⟨c1, stack1, hrun, hn1, hcfg1, hvs1, hlen1, hnode1, hleaf1, heq1⟩ :=
        innerLite fuel c seg rest hseg hrest (by omega)
      rw [hrun]
      obtain ⟨c', hrun2, hn2, hcfg2, hnode2, hleaf2, heq2⟩ :=
        ih c1 stack1 hvs1 (by omega)
      refine ⟨c', hrun2, hn2.trans hn1, hcfg2.trans hcfg1, ?_, ?_, ?_⟩
      · rw [μs_cons]
        omega
      · rw [σs_cons]
        omega
      · intro hm
        have hm1 : c1.cfg.maxprimitivenum = 1 := by rw [hcfg1]; exact hm
        obtain ⟨ha1, ha2⟩ := heq1 hm
        obtain ⟨hb1, hb2⟩ := heq2 hm1
        rw [μs_cons, σs_cons]
        exact ⟨by omega, by omega⟩

/-- `compile` always succeeds (its fuel `2n + 2` is sufficient), and
the resulting node and leaf counts obey the binary-tree bounds. -/
theorem compile_spec (c : BState) (hn : 1 ≤ c.n)
    (hcnt : c.nodenum = 0 ∧ c.leafnum = 0) :
    ∃ c', compile c = some c' ∧ c'.n = c.n ∧ c'.cfg = c.cfg ∧
      c'.nodenum ≤ 2 * c.n - 1 ∧ c'.leafnum ≤ c.n ∧
      (c.cfg.maxprimitivenum = 1 →
        c'.nodenum = 2 * c.n - 1 ∧ c'.leafnum = c.n) := by
  unfold compile
  obtain ⟨hcn, hcl⟩ := hcnt
  have hroot : ValidSeg ({ c with maxstack := max c.maxstack 1 } : BState).n
      ⟨0, c.n - 1, 0, c.scenebox⟩ := by
    unfold ValidSeg
    show 0 ≤ c.n - 1 ∧ c.n - 1 < c.n
    omega
  have hsz : (⟨0, c.n - 1, 0, c.scenebox⟩ : Segment).sz = c.n := by
    unfold Segment.sz
    show c.n - 1 + 1 - 0 = c.n
    omega
  have hμ : μs [⟨0, c.n - 1, 0, c.scenebox⟩] = 2 * c.n - 1 := by
    rw [μs_cons, μs_nil, hsz]
    omega
  have hσ : σs [⟨0, c.n - 1, 0, c.scenebox⟩] = c.n := by
    rw [σs_cons, σs_nil, hsz]
    omega
  obtain ⟨c', hrun, hn', hcfg', hnode', hleaf', heq'⟩ :=
    outerLite (2 * c.n + 2) ({ c with maxstack := max c.maxstack 1 })
      [⟨0, c.n - 1, 0, c.scenebox⟩]
      (fun s hs => by
        rcases List.mem_singleton.mp hs with rfl
        exact hroot)
      (by rw [hμ]; simp only [List.length_singleton]; omega)
  have e1 : ({ c with maxstack := max c.maxstack 1 } : BState).n = c.n := rfl
  have e2 : ({ c with maxstack := max c.maxstack 1 } : BState).nodenum = c.nodenum := rfl
  have e3 : ({ c with maxstack := max c.maxstack 1 } : BState).leafnum = c.leafnum := rfl
  have e4 : ({ c with maxstack := max c.maxstack 1 } : BState).cfg = c.cfg := rfl
  rw [e1] at hn'
  rw [e4] at hcfg' heq'
  rw [hμ, e2, hcn] at hnode' heq'
  rw [hσ, e3, hcl] at hleaf' heq'
  have g1 : (growboxes c').n = c'.n := rfl
  have g2 : (growboxes c').cfg = c'.cfg := rfl
  have g3 : (growboxes c').nodenum = c'.nodenum := rfl
  have g4 : (growboxes c').leafnum = c'.leafnum := rfl
  refine ⟨growboxes c', by rw [hrun]; rfl, ?_, ?_, ?_, ?_, ?_⟩
  · rw [g1, hn']
  · rw [g2, hcfg']
  · rw [g3]
    omega
  · rw [g4]
    omega
  · intro hm
    obtain ⟨h1, h2⟩ := heq' hm
    rw [g3, g4]
    exact ⟨by omega, by omega⟩

/-- C7: for `N ≥ 1` primitives `create` succeeds with at most `2N - 1`
emitted nodes; with `maxprimitivenum = 1` every leaf holds a single
primitive and there are exactly `N` leaves, `N - 1` inner nodes and
`2N - 1` nodes in total. -/
theorem claim_C7 (cfg : Config) (prims : List Prim) (h : 1 ≤ prims.length) :
    ∃ st, create cfg prims = some st ∧
      st.nodenum ≤ 2 * prims.length - 1 ∧
      (cfg.maxprimitivenum = 1 →
        st.leafnum = prims.length ∧
        st.nodenum = 2 * prims.length - 1 ∧
        st.nodenum - st.leafnum = prims.length - 1) := by
  unfold create
  rw [if_neg (by omega)]
  have hn : (injection cfg prims).n = prims.length := rfl
  obtain ⟨st, hrun, hstn, hstcfg, hnode, hleaf, heq⟩ :=
    compile_spec (injection cfg prims) (by rw [hn]; exact h) ⟨rfl, rfl⟩
  rw [hn] at hnode hleaf heq
  refine ⟨st, hrun, hnode, ?_⟩
  intro hm
  obtain ⟨h1, h2⟩ := heq (by show (injection cfg prims).cfg.maxprimitivenum = 1; exact hm)
  exact ⟨h2, h1, by omega⟩

theorem claim_C7_witness :
    (1 ≤ tieInput.length) ∧
    ∃ st, create ⟨1, 4, 4⟩ tieInput = some st ∧
      st.nodenum ≤ 2 * tieInput.length - 1 ∧
      ((⟨1, 4, 4⟩ : Config).maxprimitivenum = 1 →
        st.leafnum = tieInput.length ∧
        st.nodenum = 2 * tieInput.length - 1 ∧
        st.nodenum - st.leafnum = tieInput.length - 1) :=
  ⟨by decide, claim_C7 ⟨1, 4, 4⟩ tieInput (by decide)⟩

/-! ## Slice and splice toolkit -/

/-- The slice of `k` elements of `l` starting at position `s`. -/
def sliceLen (l : List ℕ) (s k : ℕ) : List ℕ := (l.drop s).take k

theorem slice_eq_sliceLen (l : List ℕ) (f lst : ℕ) :
    slice l f lst = sliceLen l f (lst + 1 - f) := rfl

theorem sliceLen_zero (l : List ℕ) (s : ℕ) : sliceLen l s 0 = [] := rfl

theorem sliceLen_length (l : List ℕ) (s k : ℕ) (h : s + k ≤ l.length) :
    (sliceLen l s k).length = k := by
  unfold sliceLen
  rw [List.length_take, List.length_drop]
  omega

theorem slice_length (l : List ℕ) (f lst : ℕ) (h1 : f ≤ lst) (h2 : lst < l.length) :
    (slice l f lst).length = lst + 1 - f := by
  rw [slice_eq_sliceLen]
  exact sliceLen_length l f (lst + 1 - f) (by omega)

theorem sliceLen_succ (l : List ℕ) (s k : ℕ) (h : s + k < l.length) :
    sliceLen l s (k + 1) = sliceLen l s k ++ [l.getD (s + k) 0] := by
  unfold sliceLen
  rw [List.take_add]
  congr 1
  rw [List.drop_drop]
  rw [List.drop_eq_getElem_cons h, List.getD_eq_getElem l 0 h]
  rfl

theorem sliceLen_cons (l : List ℕ) (s k : ℕ) (h : s < l.length) :
    sliceLen l s (k + 1) = l.getD s 0 :: sliceLen l (s + 1) k := by
  unfold sliceLen
  rw [List.drop_eq_getElem_cons h, List.getD_eq_getElem l 0 h]
  rfl

theorem slice_decomp (l : List ℕ) (f jb lst : ℕ) (h1 : f ≤ jb) (h2 : jb < lst) :
    slice l f lst = slice l f jb ++ slice l (jb + 1) lst := by
  rw [slice_eq_sliceLen, slice_eq_sliceLen, slice_eq_sliceLen]
  unfold sliceLen
  have hsum : lst + 1 - f = (jb + 1 - f) + (lst - jb) := by omega
  rw [hsum, List.take_add]
  congr 1
  rw [List.drop_drop]
  have e1 : f + (jb + 1 - f) = jb + 1 := by omega
  have e2 : lst - jb = lst + 1 - (jb + 1) := by omega
  rw [e1, e2]

theorem sliceLen_sublist (l : List ℕ) (s k : ℕ) : (sliceLen l s k).Sublist l :=
  ((l.drop s).take_sublist k).trans (l.drop_sublist s)

theorem slice_sublist (l : List ℕ) (f lst : ℕ) : (slice l f lst).Sublist l :=
  sliceLen_sublist l f (lst + 1 - f)

theorem splice_parts (l : List ℕ) (f lst : ℕ) (mid : List ℕ)
    (h1 : f ≤ lst) (h2 : lst < l.length) :
    (splice l f lst mid).drop f = mid ++ l.drop (lst + 1) ∧
    (splice l f lst mid).take f = l.take f := by
  unfold splice
  have hlt : (l.take f).length = f := by
    rw [List.length_take]
    omega
  constructor
  · rw [List.append_assoc]
    calc (l.take f ++ (mid ++ l.drop (lst + 1))).drop f
        = (l.take f ++ (mid ++ l.drop (lst + 1))).drop (l.take f).length := by rw [hlt]
      _ = mid ++ l.drop (lst + 1) := List.drop_left _ _
  · rw [List.append_assoc]
    calc (l.take f ++ (mid ++ l.drop (lst + 1))).take f
        = (l.take f ++ (mid ++ l.drop (lst + 1))).take (l.take f).length := by rw [hlt]
      _ = l.take f := List.take_left _ _

theorem splice_length (l : List ℕ) (f lst : ℕ) (mid : List ℕ)
    (h1 : f ≤ lst) (h2 : lst < l.length) (hm : mid.length = lst + 1 - f) :
    (splice l f lst mid).length = l.length := by
  unfold splice
  rw [List.length_append, List.length_append, List.length_take, List.length_drop, hm]
  omega

theorem sliceLen_splice (l : List ℕ) (f lst : ℕ) (mid : List ℕ)
    (h1 : f ≤ lst) (h2 : lst < l.length) (hm : mid.length = lst + 1 - f)
    (k : ℕ) (hk : k ≤ mid.length) :
    sliceLen (splice l f lst mid) f k = mid.take k := by
  unfold sliceLen
  rw [(splice_parts l f lst mid h1 h2).1]
  rw [List.take_append_of_le_length hk]

theorem slice_splice_right (l : List ℕ) (f lst : ℕ) (mid : List ℕ)
    (h1 : f ≤ lst) (h2 : lst < l.length) (hm : mid.length = lst + 1 - f)
    (k : ℕ) (hk : k ≤ mid.length) :
    sliceLen (splice l f lst mid) (f + k) (mid.length - k) = mid.drop k := by
  unfold sliceLen
  have hd : (splice l f lst mid).drop (f + k) = mid.drop k ++ l.drop (lst + 1) := by
    have : (splice l f lst mid).drop (f + k) = ((splice l f lst mid).drop f).drop k := by
      rw [List.drop_drop]
    rw [this, (splice_parts l f lst mid h1 h2).1]
    rw [List.drop_append_eq_append_drop]
    have : k - mid.length = 0 := by omega
    rw [this]
    simp
  rw [hd]
  rw [List.take_append_of_le_length (by rw [List.length_drop])]
  exact List.take_of_length_le (by rw [List.length_drop])

theorem splice_perm (l : List ℕ) (f lst : ℕ) (mid : List ℕ)
    (h1 : f ≤ lst) (h2 : lst < l.length)
    (hp : List.Perm mid (slice l f lst)) :
    List.Perm (splice l f lst mid) l := by
  unfold splice
  have hl : l = l.take f ++ (slice l f lst ++ l.drop (lst + 1)) := by
    rw [slice_eq_sliceLen]
    unfold sliceLen
    have hdec : l.drop f = (l.drop f).take (lst + 1 - f) ++ (l.drop f).drop (lst + 1 - f) :=
      (List.take_append_drop _ _).symm
    have hdd : (l.drop f).drop (lst + 1 - f) = l.drop (lst + 1) := by
      rw [List.drop_drop]
      congr 1
      omega
    calc l = l.take f ++ l.drop f := (List.take_append_drop f l).symm
      _ = l.take f ++ ((l.drop f).take (lst + 1 - f) ++ l.drop (lst + 1)) := by
          rw [← hdd, ← hdec]
  conv_rhs => rw [hl]
  rw [List.append_assoc]
  exact (hp.append_right (l.drop (lst + 1))).append_left (l.take f)

/-! ## Box-union algebra -/

theorem Aabb.compose_assoc (a b c : Aabb) :
    (a.compose b).compose c = a.compose (b.compose c) := by
  unfold Aabb.compose Vec3.min3 Vec3.max3
  simp [min_assoc, max_assoc]

theorem Aabb.compose_comm (a b : Aabb) : a.compose b = b.compose a := by
  unfold Aabb.compose Vec3.min3 Vec3.max3
  simp [min_comm, max_comm]

theorem Aabb.compose_right_comm (a b c : Aabb) :
    (a.compose b).compose c = (a.compose c).compose b := by
  rw [Aabb.compose_assoc, Aabb.compose_comm b c, ← Aabb.compose_assoc]

theorem Aabb.empty_compose (b : Aabb) (hb : b.Bounded) :
    Aabb.empty.compose b = b := by
  obtain ⟨h1, h2, h3, h4, h5, h6, h7, h8, h9, h10, h11, h12⟩ := hb
  unfold Aabb.empty Aabb.compose Vec3.min3 Vec3.max3 Vec3.const
  cases b with
  | mk pmin pmax =>
    cases pmin
    cases pmax
    simp only at h1 h2 h3 h4 h5 h6 h7 h8 h9 h10 h11 h12 ⊢
    congr 1 <;> simp [min_eq_right, max_eq_right] <;>
      constructor <;> first | linarith | (constructor <;> linarith)

/-- Union of `boxes[i]` (by default the empty box for an out-of-range
index) over a list of primitive indices, seeded with the inverted empty
box — the shape of every box union the builder computes. -/
def unionB (boxes : List Aabb) (l : List ℕ) : Aabb :=
  l.foldl (fun b i => b.compose (boxes.getD i Aabb.empty)) Aabb.empty

theorem unionB_nil (boxes : List Aabb) : unionB boxes [] = Aabb.empty := rfl

theorem foldl_compose_init (boxes : List Aabb) (l : List ℕ) :
    ∀ b x : Aabb,
      l.foldl (fun acc i => acc.compose (boxes.getD i Aabb.empty)) (b.compose x) =
      (l.foldl (fun acc i => acc.compose (boxes.getD i Aabb.empty)) b).compose x := by
  induction l with
  | nil => intro b x; rfl
  | cons h t ih =>
    intro b x
    show t.foldl _ ((b.compose x).compose _) = _
    rw [Aabb.compose_right_comm, ih]
    rfl

theorem unionB_cons (boxes : List Aabb) (i : ℕ) (l : List ℕ) :
    unionB boxes (i :: l) = (unionB boxes l).compose (boxes.getD i Aabb.empty) := by
  unfold unionB
  show l.foldl _ (Aabb.empty.compose _) = _
  rw [foldl_compose_init]

/-- `unionB` only depends on the multiset of indices. -/
theorem unionB_perm (boxes : List Aabb) (l₁ l₂ : List ℕ)
    (h : List.Perm l₁ l₂) : unionB boxes l₁ = unionB boxes l₂ := by
  unfold unionB
  exact @List.Perm.foldl_eq _ _ _ l₁ l₂
    ⟨fun b x y => by
      show (b.compose _).compose _ = (b.compose _).compose _
      exact Aabb.compose_right_comm _ _ _⟩ h Aabb.empty

/-- The sweep's running left box is the union of the boxes of the
slice it has covered. -/
theorem lbox_eq (c : BState) (a f : ℕ) :
    ∀ k, f + k ≤ (c.getIds a).length →
      lbox c a f k = unionB c.boxes (sliceLen (c.getIds a) f k) := by
  intro k
  induction k with
  | zero => intro _; rfl
  | succ k ih =>
    intro h
    rw [sliceLen_succ _ _ _ (by omega)]
    show (lbox c a f k).compose _ = _
    rw [ih (by omega)]
    unfold unionB
    rw [List.foldl_append]
    rfl

/-- The sweep's right-to-left inclusion boxes are the unions of the
suffix slices (boundedness makes the empty-box seed of `unionB`
vanish). -/
theorem rlbox_eq (c : BState) (a : ℕ) (hB : ∀ b ∈ c.boxes, b.Bounded) :
    ∀ cnt j, j + cnt < (c.getIds a).length →
      (∀ k, k ≤ cnt → c.idAt a (j + k) < c.boxes.length) →
      rlbox c a j cnt = unionB c.boxes (sliceLen (c.getIds a) j (cnt + 1)) := by
  intro cnt
  induction cnt with
  | zero =>
    intro j hj hk
    rw [sliceLen_cons _ _ _ (by omega), sliceLen_zero]
    show c.boxAt (c.idAt a j) = unionB c.boxes [(c.getIds a).getD j 0]
    unfold unionB
    show _ = Aabb.empty.compose (c.boxes.getD ((c.getIds a).getD j 0) Aabb.empty)
    rw [Aabb.empty_compose]
    · rfl
    · have hlt : c.idAt a (j + 0) < c.boxes.length := hk 0 (le_refl _)
      rw [Nat.add_zero] at hlt
      have : c.boxes.getD ((c.getIds a).getD j 0) Aabb.empty ∈ c.boxes := by
        show c.boxes.getD (c.idAt a j) Aabb.empty ∈ c.boxes
        rw [List.getD_eq_getElem _ _ hlt]
        exact List.getElem_mem _
      exact hB _ this
  | succ cnt ih =>
    intro j hj hk
    rw [sliceLen_cons _ _ _ (by omega)]
    rw [unionB_cons]
    show (c.boxAt (c.idAt a j)).compose (rlbox c a (j + 1) cnt) = _
    rw [ih (j + 1) (by omega) (fun k hkk => by
      have := hk (k + 1) (by omega)
      rw [show j + 1 + k = j + (k + 1) by omega]
      exact this)]
    rw [Aabb.compose_comm]
    rfl

/-! ## Position marking -/

theorem getD_set_self (l : List ℕ) (i v : ℕ) (h : i < l.length) :
    (l.set i v).getD i 0 = v := by
  have h' : i < (l.set i v).length := by simpa using h
  rw [List.getD_eq_getElem _ _ h']
  simp [List.getElem_set]

theorem getD_set_ne (l : List ℕ) (i j v : ℕ) (h : i ≠ j) :
    (l.set i v).getD j 0 = l.getD j 0 := by
  rcases Nat.lt_or_ge j l.length with hj | hj
  · have h' : j < (l.set i v).length := by simpa using hj
    rw [List.getD_eq_getElem _ _ h', List.getD_eq_getElem _ _ hj]
    simp [List.getElem_set, h]
  · rw [List.getD_eq_default _ _ (by simpa using hj), List.getD_eq_default _ _ hj]

theorem setRange_length (pos idsa : List ℕ) (v : ℕ) :
    ∀ cnt start, (setRange pos idsa start v cnt).length = pos.length := by
  intro cnt
  induction cnt generalizing pos with
  | zero => intro start; rfl
  | succ cnt ih =>
    intro start
    show (setRange (pos.set _ v) idsa (start + 1) v cnt).length = pos.length
    rw [ih]
    simp

theorem setRange_getD_of_ne (idsa : List ℕ) (v : ℕ) :
    ∀ cnt pos start i, (∀ k, k < cnt → idsa.getD (start + k) 0 ≠ i) →
      (setRange pos idsa start v cnt).getD i 0 = pos.getD i 0 := by
  intro cnt
  induction cnt with
  | zero => intro pos start i _; rfl
  | succ cnt ih =>
    intro pos start i h
    show (setRange (pos.set (idsa.getD start 0) v) idsa (start + 1) v cnt).getD i 0 = _
    rw [ih (pos.set (idsa.getD start 0) v) (start + 1) i (fun k hk => by
      have := h (k + 1) (by omega)
      rwa [show start + (k + 1) = start + 1 + k by omega] at this)]
    exact getD_set_ne pos _ i v (by
      have := h 0 (by omega)
      rwa [Nat.add_zero] at this)

theorem setRange_getD_of_mem (idsa : List ℕ) (v : ℕ) :
    ∀ cnt pos start i, (∃ k, k < cnt ∧ idsa.getD (start + k) 0 = i) →
      i < pos.length →
      (setRange pos idsa start v cnt).getD i 0 = v := by
  intro cnt
  induction cnt with
  | zero =>
    rintro pos start i ⟨k, hk, -⟩ _
    omega
  | succ cnt ih =>
    rintro pos start i ⟨k, hk, hki⟩ hlen
    show (setRange (pos.set (idsa.getD start 0) v) idsa (start + 1) v cnt).getD i 0 = v
    by_cases hex : ∃ k', k' < cnt ∧ idsa.getD (start + 1 + k') 0 = i
    · exact ih _ (start + 1) i hex (by simpa using hlen)
    · have hk0 : idsa.getD start 0 = i := by
        rcases Nat.eq_zero_or_pos k with rfl | hpos
        · rwa [Nat.add_zero] at hki
        · exfalso
          exact hex ⟨k - 1, by omega, by
            rwa [show start + 1 + (k - 1) = start + k by omega]⟩
      rw [setRange_getD_of_ne idsa v cnt _ (start + 1) i (fun k' hk' h' => by
        exact hex ⟨k', hk', h'⟩)]
      rw [hk0]
      exact getD_set_self pos i v hlen

theorem sliceLen_getD (l : List ℕ) (s k m : ℕ) (hm : m < k) (h : s + k ≤ l.length) :
    (sliceLen l s k).getD m 0 = l.getD (s + m) 0 := by
  have hlen : (sliceLen l s k).length = k := sliceLen_length l s k h
  rw [List.getD_eq_getElem _ _ (by omega)]
  rw [List.getD_eq_getElem _ _ (by omega : s + m < l.length)]
  unfold sliceLen
  rw [List.getElem_take, List.getElem_drop]

theorem mem_sliceLen_iff (l : List ℕ) (s k i : ℕ) (h : s + k ≤ l.length) :
    i ∈ sliceLen l s k ↔ ∃ m, m < k ∧ l.getD (s + m) 0 = i := by
  have hlen : (sliceLen l s k).length = k := sliceLen_length l s k h
  rw [List.mem_iff_getElem]
  constructor
  · rintro ⟨m, hm, hval⟩
    refine ⟨m, by omega, ?_⟩
    rw [← hval, List.getD_eq_getElem _ _ (by omega : s + m < l.length)]
    unfold sliceLen
    rw [List.getElem_take, List.getElem_drop]
  · rintro ⟨m, hm, hval⟩
    refine ⟨m, by omega, ?_⟩
    rw [← sliceLen_getD l s k m hm h, List.getD_eq_getElem _ _ (by omega)] at hval
    exact hval

/-- Effect of the two marking loops on `pos`: ids in the right range
get `ONRIGHT`, ids only in the left range get `ONLEFT`, everything else
is untouched. -/
theorem markPositions_getD (c : BState) (A fL lL fR lR i : ℕ)
    (hL : fL ≤ lL) (hLlen : lL < (c.getIds A).length)
    (hR : fR ≤ lR) (hRlen : lR < (c.getIds A).length)
    (hi : i < c.pos.length) :
    (markPositions c A fL lL fR lR).pos.getD i 0 =
      if i ∈ slice (c.getIds A) fR lR then ONRIGHT
      else if i ∈ slice (c.getIds A) fL lL then ONLEFT
      else c.pos.getD i 0 := by
  show (setRange (setRange c.pos (c.getIds A) fL ONLEFT (lL + 1 - fL))
      (c.getIds A) fR ONRIGHT (lR + 1 - fR)).getD i 0 = _
  by_cases hmR : i ∈ slice (c.getIds A) fR lR
  · rw [if_pos hmR]
    rw [slice_eq_sliceLen, mem_sliceLen_iff _ _ _ _ (by omega)] at hmR
    exact setRange_getD_of_mem _ _ _ _ _ _
      (by simpa using hmR) (by rw [setRange_length]; exact hi)
  · rw [if_neg hmR]
    rw [slice_eq_sliceLen, mem_sliceLen_iff _ _ _ _ (by omega)] at hmR
    push_neg at hmR
    rw [setRange_getD_of_ne _ _ _ _ _ _ (fun k hk h' => by
      exact absurd h' (hmR k (by omega)))]
    by_cases hmL : i ∈ slice (c.getIds A) fL lL
    · rw [if_pos hmL]
      rw [slice_eq_sliceLen, mem_sliceLen_iff _ _ _ _ (by omega)] at hmL
      exact setRange_getD_of_mem _ _ _ _ _ _ (by simpa using hmL) hi
    · rw [if_neg hmL]
      rw [slice_eq_sliceLen, mem_sliceLen_iff _ _ _ _ (by omega)] at hmL
      push_neg at hmL
      exact setRange_getD_of_ne _ _ _ _ _ _ (fun k hk h' => by
        exact absurd h' (hmL k (by omega)))

/-! ## The stable partition step -/

theorem slice_splice_low (l : List ℕ) (f lst : ℕ) (mid : List ℕ)
    (h1 : f ≤ lst) (h2 : lst < l.length)
    (a b : ℕ) (hb : b < f) :
    slice (splice l f lst mid) a b = slice l a b := by
  rw [slice_eq_sliceLen, slice_eq_sliceLen]
  unfold sliceLen splice
  rw [List.append_assoc]
  have hlt : (l.take f).length = min f l.length := List.length_take f l
  rcases Nat.lt_or_ge a f with ha | ha
  · rw [List.drop_append_of_le_length (by omega)]
    rw [List.take_append_of_le_length (by
      rw [List.length_drop]
      omega)]
    rw [List.drop_take]
    rw [List.take_take]
    congr 1
    omega
  · have hz : b + 1 - a = 0 := by omega
    rw [hz]
    rfl

theorem slice_splice_high (l : List ℕ) (f lst : ℕ) (mid : List ℕ)
    (h1 : f ≤ lst) (h2 : lst < l.length) (hm : mid.length = lst + 1 - f)
    (a b : ℕ) (ha : lst < a) :
    slice (splice l f lst mid) a b = slice l a b := by
  rw [slice_eq_sliceLen, slice_eq_sliceLen]
  unfold sliceLen splice
  have hpre : (l.take f ++ mid).length = lst + 1 := by
    rw [List.length_append, List.length_take, hm]
    omega
  rw [List.drop_append_eq_append_drop]
  rw [List.drop_eq_nil_of_le (by rw [hpre]; omega)]
  rw [List.nil_append, hpre, List.drop_drop]
  congr 2
  omega

/-- Full contract of the stable-partition reorder of one other axis:
with `pos` marked as the split `(f, jb) | (jb+1, lst)` of the split
axis, the counts are the two side sizes, the array stays a permutation
of itself, the two new sub-slices are permutations of the split axis's
sub-slices while remaining subsequences of the old slice (hence keep
their own centroid order), and everything outside `[f, lst]` is
untouched. -/
theorem reorderAxis_spec
    (idsA ld pos : List ℕ) (f jb lst : ℕ)
    (hfj : f ≤ jb) (hjl : jb < lst)
    (hlenA : lst < idsA.length) (hlend : lst < ld.length)
    (hnodupA : (slice idsA f lst).Nodup)
    (hperm : List.Perm (slice ld f lst) (slice idsA f lst))
    (hpos : ∀ i ∈ slice idsA f lst,
      pos.getD i 1 = if i ∈ slice idsA (jb + 1) lst then ONRIGHT else ONLEFT) :
    (reorderAxis pos ld f lst).2.1 = jb + 1 - f ∧
    (reorderAxis pos ld f lst).2.2 = lst - jb ∧
    (reorderAxis pos ld f lst).1.length = ld.length ∧
    List.Perm (reorderAxis pos ld f lst).1 ld ∧
    List.Perm (slice (reorderAxis pos ld f lst).1 f jb) (slice idsA f jb) ∧
    List.Perm (slice (reorderAxis pos ld f lst).1 (jb + 1) lst)
      (slice idsA (jb + 1) lst) ∧
    (slice (reorderAxis pos ld f lst).1 f jb).Sublist (slice ld f lst) ∧
    (slice (reorderAxis pos ld f lst).1 (jb + 1) lst).Sublist (slice ld f lst) ∧
    (∀ a b : ℕ, b < f → slice (reorderAxis pos ld f lst).1 a b = slice ld a b) ∧
    (∀ a b : ℕ, lst < a → slice (reorderAxis pos ld f lst).1 a b = slice ld a b) := by
  have hLR : slice idsA f lst = slice idsA f jb ++ slice idsA (jb + 1) lst :=
    slice_decomp idsA f jb lst hfj hjl
  have hdisj : (slice idsA f jb).Disjoint (slice idsA (jb + 1) lst) := by
    rw [hLR] at hnodupA
    exact List.disjoint_of_nodup_append hnodupA
  -- the two filters select exactly the two sides of the split
  have hfLc : (slice ld f lst).filter (fun id => pos.getD id 1 == ONLEFT) =
      (slice ld f lst).filter (fun id => decide (id ∈ slice idsA f jb)) := by
    apply List.filter_congr
    intro i hi
    have hiA : i ∈ slice idsA f lst := hperm.mem_iff.mp hi
    have hv := hpos i hiA
    by_cases hiR : i ∈ slice idsA (jb + 1) lst
    · rw [if_pos hiR] at hv
      rw [hv]
      have hiL : i ∉ slice idsA f jb := fun h => hdisj h hiR
      simp [ONRIGHT, ONLEFT, hiL]
    · rw [if_neg hiR] at hv
      rw [hv]
      have hiL : i ∈ slice idsA f jb := by
        rw [hLR] at hiA
        rcases List.mem_append.mp hiA with h | h
        · exact h
        · exact absurd h hiR
      simp [ONLEFT, hiL]
  have hfRc : (slice ld f lst).filter (fun id => !(pos.getD id 1 == ONLEFT)) =
      (slice ld f lst).filter (fun id => decide (id ∈ slice idsA (jb + 1) lst)) := by
    apply List.filter_congr
    intro i hi
    have hiA : i ∈ slice idsA f lst := hperm.mem_iff.mp hi
    have hv := hpos i hiA
    by_cases hiR : i ∈ slice idsA (jb + 1) lst
    · rw [if_pos hiR] at hv
      rw [hv]
      simp [ONRIGHT, ONLEFT, hiR]
    · rw [if_neg hiR] at hv
      rw [hv]
      simp [ONLEFT, hiR]
  have hpermL : List.Perm ((slice ld f lst).filter
      (fun id => pos.getD id 1 == ONLEFT)) (slice idsA f jb) := by
    rw [hfLc]
    have h1 := hperm.filter (fun id => decide (id ∈ slice idsA f jb))
    have h2 : (slice idsA f lst).filter (fun id => decide (id ∈ slice idsA f jb)) =
        slice idsA f jb := by
      rw [hLR, List.filter_append]
      rw [List.filter_eq_self.mpr (fun a ha => by simpa using ha)]
      rw [List.filter_eq_nil_iff.mpr (fun a ha => by
        simp only [decide_eq_true_eq]
        exact fun h => hdisj h ha)]
      rw [List.append_nil]
    have h3 : List.Perm ((slice idsA f lst).filter
        (fun id => decide (id ∈ slice idsA f jb))) (slice idsA f jb) := by
      rw [h2]
    exact h1.trans h3
  have hpermR : List.Perm ((slice ld f lst).filter
      (fun id => !(pos.getD id 1 == ONLEFT))) (slice idsA (jb + 1) lst) := by
    rw [hfRc]
    have h1 := hperm.filter (fun id => decide (id ∈ slice idsA (jb + 1) lst))
    have h2 : (slice idsA f lst).filter
        (fun id => decide (id ∈ slice idsA (jb + 1) lst)) =
        slice idsA (jb + 1) lst := by
      rw [hLR, List.filter_append]
      rw [List.filter_eq_nil_iff.mpr (fun a ha => by
        simp only [decide_eq_true_eq]
        exact fun h => hdisj ha h)]
      rw [List.filter_eq_self.mpr (fun a ha => by simpa using ha)]
      rw [List.nil_append]
    have h3 : List.Perm ((slice idsA f lst).filter
        (fun id => decide (id ∈ slice idsA (jb + 1) lst))) (slice idsA (jb + 1) lst) := by
      rw [h2]
    exact h1.trans h3
  have hlenL : ((slice ld f lst).filter
      (fun id => pos.getD id 1 == ONLEFT)).length = jb + 1 - f := by
    rw [hpermL.length_eq]
    exact slice_length idsA f jb hfj (by omega)
  have hlenR : ((slice ld f lst).filter
      (fun id => !(pos.getD id 1 == ONLEFT))).length = lst - jb := by
    rw [hpermR.length_eq]
    have := slice_length idsA (jb + 1) lst (by omega) (by omega)
    rw [this]
    omega
  have hmidlen : ((slice ld f lst).filter (fun id => pos.getD id 1 == ONLEFT) ++
      (slice ld f lst).filter (fun id => !(pos.getD id 1 == ONLEFT))).length
      = lst + 1 - f := by
    rw [List.length_append, hlenL, hlenR]
    omega
  have hmidperm : List.Perm
      ((slice ld f lst).filter (fun id => pos.getD id 1 == ONLEFT) ++
        (slice ld f lst).filter (fun id => !(pos.getD id 1 == ONLEFT)))
      (slice ld f lst) := List.filter_append_perm _ _
  have hre : reorderAxis pos ld f lst =
      (splice ld f lst ((slice ld f lst).filter (fun id => pos.getD id 1 == ONLEFT) ++
        (slice ld f lst).filter (fun id => !(pos.getD id 1 == ONLEFT))),
       ((slice ld f lst).filter (fun id => pos.getD id 1 == ONLEFT)).length,
       ((slice ld f lst).filter (fun id => !(pos.getD id 1 == ONLEFT))).length) := rfl
  rw [hre]
  dsimp only
  refine ⟨hlenL, hlenR, ?_, ?_, ?_, ?_, ?_, ?_, ?_, ?_⟩
  · exact splice_length ld f lst ((slice ld f lst).filter (fun id => pos.getD id 1 == ONLEFT) ++
        (slice ld f lst).filter (fun id => !(pos.getD id 1 == ONLEFT))) (by omega) hlend hmidlen
  · exact splice_perm ld f lst ((slice ld f lst).filter (fun id => pos.getD id 1 == ONLEFT) ++
        (slice ld f lst).filter (fun id => !(pos.getD id 1 == ONLEFT))) (by omega) hlend hmidperm
  · -- left sub-slice is exactly the left filter
    have heq : slice (splice ld f lst ((slice ld f lst).filter (fun id => pos.getD id 1 == ONLEFT) ++
        (slice ld f lst).filter (fun id => !(pos.getD id 1 == ONLEFT)))) f jb =
        (slice ld f lst).filter (fun id => pos.getD id 1 == ONLEFT) := by
      rw [slice_eq_sliceLen]
      rw [show jb + 1 - f = ((slice ld f lst).filter
        (fun id => pos.getD id 1 == ONLEFT)).length from hlenL.symm]
      rw [sliceLen_splice ld f lst _ (by omega) hlend hmidlen _
        (by rw [List.length_append]; omega)]
      exact List.take_left _ _
    rw [heq]
    exact hpermL
  · have heq : slice (splice ld f lst ((slice ld f lst).filter (fun id => pos.getD id 1 == ONLEFT) ++
        (slice ld f lst).filter (fun id => !(pos.getD id 1 == ONLEFT)))) (jb + 1) lst =
        (slice ld f lst).filter (fun id => !(pos.getD id 1 == ONLEFT)) := by
      have hrs := slice_splice_right ld f lst ((slice ld f lst).filter (fun id => pos.getD id 1 == ONLEFT) ++
        (slice ld f lst).filter (fun id => !(pos.getD id 1 == ONLEFT))) (by omega) hlend hmidlen
        (jb + 1 - f) (by rw [List.length_append]; omega)
      have e1 : f + (jb + 1 - f) = jb + 1 := by omega
      have e2 : (((slice ld f lst).filter (fun id => pos.getD id 1 == ONLEFT) ++
        (slice ld f lst).filter (fun id => !(pos.getD id 1 == ONLEFT))) : List _).length - (jb + 1 - f) = lst + 1 - (jb + 1) := by
        rw [hmidlen]
        omega
      rw [e1, e2] at hrs
      rw [slice_eq_sliceLen, hrs]
      rw [show jb + 1 - f = ((slice ld f lst).filter
        (fun id => pos.getD id 1 == ONLEFT)).length from hlenL.symm]
      exact List.drop_left _ _
    rw [heq]
    exact hpermR
  · have heq : slice (splice ld f lst ((slice ld f lst).filter (fun id => pos.getD id 1 == ONLEFT) ++
        (slice ld f lst).filter (fun id => !(pos.getD id 1 == ONLEFT)))) f jb =
        (slice ld f lst).filter (fun id => pos.getD id 1 == ONLEFT) := by
      rw [slice_eq_sliceLen]
      rw [show jb + 1 - f = ((slice ld f lst).filter
        (fun id => pos.getD id 1 == ONLEFT)).length from hlenL.symm]
      rw [sliceLen_splice ld f lst _ (by omega) hlend hmidlen _
        (by rw [List.length_append]; omega)]
      exact List.take_left _ _
    rw [heq]
    exact List.filter_sublist _
  · have heq : slice (splice ld f lst ((slice ld f lst).filter (fun id => pos.getD id 1 == ONLEFT) ++
        (slice ld f lst).filter (fun id => !(pos.getD id 1 == ONLEFT)))) (jb + 1) lst =
        (slice ld f lst).filter (fun id => !(pos.getD id 1 == ONLEFT)) := by
      have hrs := slice_splice_right ld f lst ((slice ld f lst).filter (fun id => pos.getD id 1 == ONLEFT) ++
        (slice ld f lst).filter (fun id => !(pos.getD id 1 == ONLEFT))) (by omega) hlend hmidlen
        (jb + 1 - f) (by rw [List.length_append]; omega)
      have e1 : f + (jb + 1 - f) = jb + 1 := by omega
      have e2 : (((slice ld f lst).filter (fun id => pos.getD id 1 == ONLEFT) ++
        (slice ld f lst).filter (fun id => !(pos.getD id 1 == ONLEFT))) : List _).length - (jb + 1 - f) = lst + 1 - (jb + 1) := by
        rw [hmidlen]
        omega
      rw [e1, e2] at hrs
      rw [slice_eq_sliceLen, hrs]
      rw [show jb + 1 - f = ((slice ld f lst).filter
        (fun id => pos.getD id 1 == ONLEFT)).length from hlenL.symm]
      exact List.drop_left _ _
    rw [heq]
    exact List.filter_sublist _
  · intro a b hb
    exact slice_splice_low ld f lst _ (by omega) hlend a b hb
  · intro a b ha
    exact slice_splice_high ld f lst _ (by omega) hlend hmidlen a b ha

/-! ## The build invariant -/

/-- What `acc` looks like as a function of the emitted leaves: one
block of Wald records per triangle leaf, each record carrying the
leaf's count. -/
def buildAcc (prims : List Prim) : List LeafRec → List Wald
  | [] => []
  | L :: ls =>
    (if L.isIsec then [] else L.pids.map (fun id =>
      { maketriangle (prims.getD id (Prim.isec (Vec3.const 0) (Vec3.const 0))) id 0 with
        num := L.cnt })) ++ buildAcc prims ls

theorem buildAcc_append (prims : List Prim) (l1 l2 : List LeafRec) :
    buildAcc prims (l1 ++ l2) = buildAcc prims l1 ++ buildAcc prims l2 := by
  induction l1 with
  | nil => rfl
  | cons L t ih =>
    show (if L.isIsec then [] else _) ++ buildAcc prims (t ++ l2) = _
    rw [ih, ← List.append_assoc]
    rfl

/-- Global facts about the compiler state that hold from injection to
the end of the build. -/
def GlobalInv (c : BState) : Prop :=
  c.prims.length = c.n ∧
  c.boxes = c.prims.map Prim.getaabb ∧
  c.istri = c.prims.map Prim.istri ∧
  c.pos.length = c.n ∧
  (∀ a, a < 3 → List.Perm (c.getIds a) (List.range c.n)) ∧
  (∀ b ∈ c.boxes, b.Bounded)

/-- The per-segment invariant: a valid range, a reserved slot not past
`currid`, the box is the union of the boxes of the ids in the range,
and each axis's slice of the range holds the same ids as `ids[0]`'s,
sorted by its own centroid coordinate. -/
def SegOK (c : BState) (s : Segment) : Prop :=
  s.first ≤ s.last ∧ s.last < c.n ∧ s.id ≤ c.currid ∧
  s.box = unionB c.boxes (slice c.ids0 s.first s.last) ∧
  (∀ a, a < 3 →
    List.Perm (slice (c.getIds a) s.first s.last) (slice c.ids0 s.first s.last) ∧
    List.Sorted (centLe c.centroids a) (slice (c.getIds a) s.first s.last))

/-- Disjoint index ranges. -/
def Disj (s t : Segment) : Prop := s.last < t.first ∨ t.last < s.first

/-- Written node slots are within `currid`, live slots are unwritten. -/
def NodesInv (c : BState) (live : List Segment) : Prop :=
  (∀ p ∈ c.root, p.1 ≤ c.currid) ∧
  (∀ s ∈ live, ∀ p ∈ c.root, p.1 ≠ s.id)

/-- Every recorded parent/children triple points at an emitted inner
node whose stored offset locates both children (which are each written
or still pending). -/
def EdgeInv (c : BState) (live : List Segment) : Prop :=
  ∀ e ∈ c.edges, ∃ ax off, 1 ≤ off ∧
    (∃ b, c.getNode e.1 = some ⟨b, NodeData.inner ax off⟩) ∧
    e.2.1 = e.1 + off ∧ e.2.2 = e.1 + off + 1 ∧
    (e.2.1 ∈ c.root.map Prod.fst ∨ ∃ s ∈ live, s.id = e.2.1) ∧
    (e.2.2 ∈ c.root.map Prod.fst ∨ ∃ s ∈ live, s.id = e.2.2)

/-- Every recorded push deferred the side with at least as many
primitives as the side the loop continued with. -/
def PushInv (c : BState) : Prop := ∀ p ∈ c.pushes, p.2 ≤ p.1

/-- Leaf bookkeeping: counts match, sub-intersector leaves are
singletons, triangle leaves hold only triangles, and `acc` is exactly
the concatenation of the triangle leaves' Wald blocks. -/
def LeafInv (c : BState) : Prop :=
  (∀ L ∈ c.leafrecs,
    L.cnt = L.pids.length ∧
    (L.isIsec = true → ∃ i, L.pids = [i] ∧ (c.primAt i).istri = false) ∧
    (L.isIsec = false → ∀ i ∈ L.pids, (c.primAt i).istri = true)) ∧
  c.acc = buildAcc c.prims c.leafrecs

/-- The ghost stack-high-water bound. -/
def MaxInv (c : BState) : Prop := c.n ≤ 2 ^ 64 → c.maxstack ≤ 64

/-- The complete invariant over the live segments. -/
def Inv (c : BState) (live : List Segment) : Prop :=
  GlobalInv c ∧ (∀ s ∈ live, SegOK c s) ∧ live.Pairwise Disj ∧
  (live.map Segment.id).Nodup ∧ NodesInv c live ∧ EdgeInv c live ∧
  PushInv c ∧ LeafInv c ∧ MaxInv c

/-- The size-chain invariant of the work stack: each deferred segment
is at least as large as everything deferred after it plus the current
work, which makes suffix sums at least double at each level down. -/
def goodFrom (n : ℕ) : List Segment → ℕ → Prop
  | [], m => m ≤ n
  | s :: rest, m => m ≤ s.sz ∧ goodFrom n rest (s.sz + m)

/-- The outer loop's residual form of the chain invariant. -/
def OuterGood (n : ℕ) : List Segment → Prop
  | [] => True
  | s :: rest => goodFrom n rest s.sz

theorem goodFrom_mono (n : ℕ) :
    ∀ st m m', goodFrom n st m → m' ≤ m → goodFrom n st m' := by
  intro st
  induction st with
  | nil =>
    intro m m' h hle
    exact le_trans hle h
  | cons s rest ih =>
    rintro m m' ⟨h1, h2⟩ hle
    exact ⟨le_trans hle h1, ih _ _ h2 (by omega)⟩

theorem goodFrom_bound (n : ℕ) :
    ∀ st m, goodFrom n st m → 1 ≤ m → 2 ^ st.length * m ≤ n := by
  intro st
  induction st with
  | nil =>
    intro m h hm
    simpa using h
  | cons s rest ih =>
    rintro m ⟨h1, h2⟩ hm
    have := ih (s.sz + m) h2 (by omega)
    have h2m : 2 ^ (s :: rest).length * m ≤ 2 ^ rest.length * (s.sz + m) := by
      simp only [List.length_cons, pow_succ]
      have : 2 ^ rest.length * 2 * m = 2 ^ rest.length * (2 * m) := by ring
      rw [this]
      exact Nat.mul_le_mul_left _ (by omega)
    omega

theorem getD_map_istri (prims : List Prim) (i : ℕ) (h : i < prims.length) :
    (prims.map Prim.istri).getD i false =
      (prims.getD i (Prim.isec (Vec3.const 0) (Vec3.const 0))).istri := by
  rw [List.getD_eq_getElem _ _ (by simpa using h), List.getD_eq_getElem _ _ h]
  simp

theorem getD_irrel (l : List ℕ) (i d1 d2 : ℕ) (h : i < l.length) :
    l.getD i d1 = l.getD i d2 := by
  rw [List.getD_eq_getElem _ _ h, List.getD_eq_getElem _ _ h]

theorem getIds_setIds (c : BState) (a b : ℕ) (l : List ℕ)
    (ha : a < 3) (hb : b < 3) :
    (c.setIds a l).getIds b = if a = b then l else c.getIds b := by
  unfold BState.setIds BState.getIds
  interval_cases a <;> interval_cases b <;> simp

theorem getNode_cons_ne (c : BState) (i j : ℕ) (nd : Node) (h : j ≠ i) :
    (({ c with root := (j, nd) :: c.root } : BState).getNode i) = c.getNode i := by
  unfold BState.getNode
  rw [List.find?_cons_of_neg]
  simp [h]

theorem getNode_cons_self (c : BState) (j : ℕ) (nd : Node) :
    (({ c with root := (j, nd) :: c.root } : BState).getNode j) = some nd := by
  unfold BState.getNode
  rw [List.find?_cons_of_pos]
  · rfl
  · simp

theorem setIds_pos (c : BState) (a : ℕ) (l : List ℕ) :
    (c.setIds a l).pos = c.pos := by
  unfold BState.setIds
  rcases a with _ | _ | a <;> rfl

theorem setIds_centroids (c : BState) (a : ℕ) (l : List ℕ) :
    (c.setIds a l).centroids = c.centroids := by
  unfold BState.setIds
  rcases a with _ | _ | a <;> rfl

theorem otheraxis_facts (A : ℕ) (hA : A < 3) :
    otheraxis A < 3 ∧ otheraxis (A + 1) < 3 ∧ otheraxis A ≠ A ∧
    otheraxis (A + 1) ≠ A ∧ otheraxis A ≠ otheraxis (A + 1) ∧
    (∀ b, b < 3 → b = A ∨ b = otheraxis A ∨ b = otheraxis (A + 1)) := by
  interval_cases A <;>
    refine ⟨by decide, by decide, by decide, by decide, by decide, ?_⟩ <;>
    (intro b hb; interval_cases b <;> simp [otheraxis])

theorem sorted_sub_slices {r : ℕ → ℕ → Prop} (l : List ℕ) (f jb lst : ℕ)
    (h1 : f ≤ jb) (h2 : jb < lst) (hs : List.Sorted r (slice l f lst)) :
    List.Sorted r (slice l f jb) ∧ List.Sorted r (slice l (jb + 1) lst) := by
  rw [slice_decomp l f jb lst h1 h2] at hs
  have h := List.pairwise_append.mp hs
  exact ⟨h.1, h.2.1⟩

theorem slice_sub_sublists (l : List ℕ) (f jb lst : ℕ)
    (h1 : f ≤ jb) (h2 : jb < lst) :
    (slice l f jb).Sublist (slice l f lst) ∧
    (slice l (jb + 1) lst).Sublist (slice l f lst) := by
  rw [slice_decomp l f jb lst h1 h2]
  exact ⟨List.sublist_append_left _ _, List.sublist_append_right _ _⟩

/-- Contract of both reorder iterations at the state level: counts are
the side sizes; `ids[A]` is untouched; every axis keeps a permutation
of what it held; both new sub-slices of every axis hold the same ids as
the split axis's sub-slices while being subsequences of the old slice;
slices outside `[f, lst]` are untouched. -/
theorem reorderBoth_spec (cc : BState) (A f jb lst : ℕ)
    (hA : A < 3) (hfj : f ≤ jb) (hjl : jb < lst)
    (hlen : ∀ b, b < 3 → lst < (cc.getIds b).length)
    (hnodA : (slice (cc.getIds A) f lst).Nodup)
    (hpermb : ∀ b, b < 3 →
      List.Perm (slice (cc.getIds b) f lst) (slice (cc.getIds A) f lst))
    (hpos : ∀ i ∈ slice (cc.getIds A) f lst,
      cc.pos.getD i 1 =
        if i ∈ slice (cc.getIds A) (jb + 1) lst then ONRIGHT else ONLEFT) :
    (reorderBoth cc A f lst).2.1 = jb + 1 - f ∧
    (reorderBoth cc A f lst).2.2 = lst - jb ∧
    (reorderBoth cc A f lst).1.getIds A = cc.getIds A ∧
    (∀ b, b < 3 →
      List.Perm ((reorderBoth cc A f lst).1.getIds b) (cc.getIds b) ∧
      List.Perm (slice ((reorderBoth cc A f lst).1.getIds b) f jb)
        (slice (cc.getIds A) f jb) ∧
      List.Perm (slice ((reorderBoth cc A f lst).1.getIds b) (jb + 1) lst)
        (slice (cc.getIds A) (jb + 1) lst) ∧
      (slice ((reorderBoth cc A f lst).1.getIds b) f jb).Sublist
        (slice (cc.getIds b) f lst) ∧
      (slice ((reorderBoth cc A f lst).1.getIds b) (jb + 1) lst).Sublist
        (slice (cc.getIds b) f lst) ∧
      (∀ x y : ℕ, y < f ∨ lst < x →
        slice ((reorderBoth cc A f lst).1.getIds b) x y =
          slice (cc.getIds b) x y)) := by
  obtain ⟨hd0, hd1, hd0A, hd1A, hd01, hcover⟩ := otheraxis_facts A hA
  have hspec0 := reorderAxis_spec (cc.getIds A) (cc.getIds (otheraxis A)) cc.pos
    f jb lst hfj hjl (hlen A hA) (hlen _ hd0) hnodA (hpermb _ hd0) hpos
  -- state after the first reorder
  have hgi1 : ∀ b, b < 3 →
      (cc.setIds (otheraxis A) (reorderAxis cc.pos (cc.getIds (otheraxis A)) f lst).1).getIds b =
      if otheraxis A = b then (reorderAxis cc.pos (cc.getIds (otheraxis A)) f lst).1
      else cc.getIds b := fun b hb => getIds_setIds cc _ b _ hd0 hb
  have hpos1 : (cc.setIds (otheraxis A)
      (reorderAxis cc.pos (cc.getIds (otheraxis A)) f lst).1).pos = cc.pos :=
    setIds_pos cc _ _
  have hre : reorderBoth cc A f lst =
      ((cc.setIds (otheraxis A) (reorderAxis cc.pos (cc.getIds (otheraxis A)) f lst).1).setIds
        (otheraxis (A + 1))
        (reorderAxis
          (cc.setIds (otheraxis A) (reorderAxis cc.pos (cc.getIds (otheraxis A)) f lst).1).pos
          ((cc.setIds (otheraxis A)
            (reorderAxis cc.pos (cc.getIds (otheraxis A)) f lst).1).getIds (otheraxis (A + 1)))
          f lst).1,
       (reorderAxis
          (cc.setIds (otheraxis A) (reorderAxis cc.pos (cc.getIds (otheraxis A)) f lst).1).pos
          ((cc.setIds (otheraxis A)
            (reorderAxis cc.pos (cc.getIds (otheraxis A)) f lst).1).getIds (otheraxis (A + 1)))
          f lst).2.1,
       (reorderAxis
          (cc.setIds (otheraxis A) (reorderAxis cc.pos (cc.getIds (otheraxis A)) f lst).1).pos
          ((cc.setIds (otheraxis A)
            (reorderAxis cc.pos (cc.getIds (otheraxis A)) f lst).1).getIds (otheraxis (A + 1)))
          f lst).2.2) := rfl
  have hg1d1 : (cc.setIds (otheraxis A)
      (reorderAxis cc.pos (cc.getIds (otheraxis A)) f lst).1).getIds (otheraxis (A + 1)) =
      cc.getIds (otheraxis (A + 1)) := by
    rw [hgi1 _ hd1, if_neg hd01]
  have hspec1 := reorderAxis_spec (cc.getIds A) (cc.getIds (otheraxis (A + 1))) cc.pos
    f jb lst hfj hjl (hlen A hA) (hlen _ hd1) hnodA (hpermb _ hd1) hpos
  rw [hre]
  rw [hg1d1, hpos1]
  have hgiFin : ∀ b, b < 3 →
      ((cc.setIds (otheraxis A) (reorderAxis cc.pos (cc.getIds (otheraxis A)) f lst).1).setIds
        (otheraxis (A + 1))
        (reorderAxis cc.pos (cc.getIds (otheraxis (A + 1))) f lst).1).getIds b =
      if otheraxis (A + 1) = b then (reorderAxis cc.pos (cc.getIds (otheraxis (A + 1))) f lst).1
      else if otheraxis A = b then (reorderAxis cc.pos (cc.getIds (otheraxis A)) f lst).1
      else cc.getIds b := by
    intro b hb
    rw [getIds_setIds _ _ b _ hd1 hb]
    by_cases h : otheraxis (A + 1) = b
    · simp only [if_pos h]
    · simp only [if_neg h]
      rw [hgi1 _ hb]
  obtain ⟨ha1, ha2, ha3, ha4, ha5, ha6, ha7, ha8, ha9, ha10⟩ := hspec0
  obtain ⟨hb1, hb2, hb3, hb4, hb5, hb6, hb7, hb8, hb9, hb10⟩ := hspec1
  refine ⟨hb1, hb2, ?_, ?_⟩
  · rw [hgiFin A hA, if_neg hd1A, if_neg hd0A]
  · intro b hb
    rw [hgiFin b hb]
    rcases hcover b hb with rfl | rfl | rfl
    · rw [if_neg hd1A, if_neg hd0A]
      have hsub := slice_sub_sublists (cc.getIds b) f jb lst hfj hjl
      exact ⟨List.Perm.refl _, List.Perm.refl _, List.Perm.refl _, hsub.1, hsub.2,
        fun x y _ => rfl⟩
    · by_cases hsame : otheraxis (A + 1) = otheraxis A
      · exact absurd hsame.symm hd01
      · rw [if_neg hsame, if_pos rfl]
        exact ⟨ha4, ha5, ha6, ha7, ha8, fun x y hxy => by
          rcases hxy with h | h
          · exact ha9 x y h
          · exact ha10 x y h⟩
    · rw [if_pos rfl]
      exact ⟨hb4, hb5, hb6, hb7, hb8, fun x y hxy => by
        rcases hxy with h | h
        · exact hb9 x y h
        · exact hb10 x y h⟩

theorem makenode_getIds (c : BState) (s : Segment) (ax b : ℕ) :
    (makenode c s ax).getIds b = c.getIds b := by
  rcases b with _ | _ | b <;> rfl

theorem makenode_pos (c : BState) (s : Segment) (ax : ℕ) :
    (makenode c s ax).pos = c.pos := rfl

theorem markPositions_getIds (c : BState) (A fL lL fR lR b : ℕ) :
    (markPositions c A fL lL fR lR).getIds b = c.getIds b := by
  rcases b with _ | _ | b <;> rfl

theorem markPositions_pos_length (c : BState) (A fL lL fR lR : ℕ) :
    (markPositions c A fL lL fR lR).pos.length = c.pos.length := by
  show (setRange (setRange c.pos (c.getIds A) fL ONLEFT (lL + 1 - fL))
      (c.getIds A) fR ONRIGHT (lR + 1 - fR)).length = c.pos.length
  rw [setRange_length, setRange_length]

theorem getNode_some_mem (c : BState) (i : ℕ) (nd : Node)
    (h : c.getNode i = some nd) : i ∈ c.root.map Prod.fst := by
  unfold BState.getNode at h
  rcases hf : c.root.find? (fun p => p.1 == i) with _ | p
  · rw [hf] at h
    exact absurd h (by simp)
  · have hp := List.find?_some hf
    have hmem := List.mem_of_find?_eq_some hf
    have hpe : p.1 = i := by simpa using hp
    exact hpe ▸ List.mem_map_of_mem Prod.fst hmem

theorem toNat_cast (m : ℕ) : ((m : Int)).toNat = m := rfl

theorem toNat_cast_add_one (m : ℕ) : ((m : Int) + 1).toNat = m + 1 := by omega

/-- Preservation of the full build invariant and of the stack size chain
across one split of the inner loop. -/
theorem splitStep_preserves
    (c : BState) (cur : Segment) (stack : List Segment)
    (hInv : Inv c (cur :: stack))
    (hgf : goodFrom c.n stack cur.sz)
    (best : Partition) (A jb : ℕ)
    (hA0 : A < 3) (hjb1 : cur.first ≤ jb) (hjb2 : jb < cur.last)
    (hax : best.axis = A)
    (hfL : best.firstL = (cur.first : Int)) (hlL : best.lastL = (jb : Int))
    (hfR : best.firstR = (jb : Int) + 1) (hlR : best.lastR = (cur.last : Int))
    (hbL : best.boxL = lbox c A cur.first (jb + 1 - cur.first))
    (hbR : best.boxR = rlbox c A (jb + 1) (cur.last - (jb + 1))) :
    Inv (splitStep c cur best stack.length).1
      ((splitStep c cur best stack.length).2.1 ::
        (splitStep c cur best stack.length).2.2 :: stack) ∧
    goodFrom (splitStep c cur best stack.length).1.n
      ((splitStep c cur best stack.length).2.2 :: stack)
      (splitStep c cur best stack.length).2.1.sz ∧
    (splitStep c cur best stack.length).2.1.sz +
      (splitStep c cur best stack.length).2.2.sz = cur.sz ∧
    1 ≤ (splitStep c cur best stack.length).2.1.sz ∧
    1 ≤ (splitStep c cur best stack.length).2.2.sz ∧
    (splitStep c cur best stack.length).1.n = c.n ∧
    (splitStep c cur best stack.length).1.cfg = c.cfg ∧
    (splitStep c cur best stack.length).1.prims = c.prims := by
  subst hax
  obtain ⟨hG, hSegs, hDisj, hNd, hNodes, hEdge, hPush, hLeaf, hMax⟩ := hInv
  obtain ⟨hplen, hbx, hit, hposlen, hperm3, hBdd⟩ := hG
  have hcurOK := hSegs cur (List.mem_cons_self _ _)
  obtain ⟨hcfl, hcln, hcid, hcbox, hcax⟩ := hcurOK
  have hstackOK : ∀ s ∈ stack, SegOK c s :=
    fun s hs => hSegs s (List.mem_cons_of_mem _ hs)
  have hlen3 : ∀ b, b < 3 → (c.getIds b).length = c.n := fun b hb =>
    (hperm3 b hb).length_eq.trans (List.length_range _)
  have hmemlt : ∀ b, b < 3 → ∀ x ∈ c.getIds b, x < c.n := fun b hb x hx =>
    List.mem_range.mp ((hperm3 b hb).mem_iff.mp hx)
  have hnd3 : ∀ b, b < 3 → (c.getIds b).Nodup := fun b hb =>
    ((hperm3 b hb).nodup_iff).mpr (List.nodup_range _)
  have hidlt : ∀ a, a < 3 → ∀ m, m < c.n → c.idAt a m < c.n := by
    intro a ha m hm
    have hlen := hlen3 a ha
    have hmem : (c.getIds a).getD m 0 ∈ c.getIds a := by
      rw [List.getD_eq_getElem _ _ (by omega)]
      exact List.getElem_mem _
    exact hmemlt a ha _ hmem
  have hblen : c.boxes.length = c.n := by
    rw [hbx, List.length_map, hplen]
  -- toNat forms of the partition range fields
  have hfLn : best.firstL.toNat = cur.first := by rw [hfL]; omega
  have hlLn : best.lastL.toNat = jb := by rw [hlL]; omega
  have hfRn : best.firstR.toNat = jb + 1 := by rw [hfR]; omega
  have hlRn : best.lastR.toNat = cur.last := by rw [hlR]; omega
  -- the marked state
  have hgidscc : ∀ b, (markPositions (makenode c cur best.axis) best.axis
      best.firstL.toNat best.lastL.toNat best.firstR.toNat best.lastR.toNat).getIds b =
      c.getIds b := by
    intro b
    rw [markPositions_getIds, makenode_getIds]
  have hccposlen : (markPositions (makenode c cur best.axis) best.axis
      best.firstL.toNat best.lastL.toNat best.firstR.toNat best.lastR.toNat).pos.length =
      c.n := by
    rw [markPositions_pos_length]
    show c.pos.length = c.n
    exact hposlen
  -- the pos characterization the reorder contract needs
  have hposcc : ∀ i ∈ slice ((markPositions (makenode c cur best.axis) best.axis
      best.firstL.toNat best.lastL.toNat best.firstR.toNat best.lastR.toNat).getIds
        best.axis) cur.first cur.last,
      (markPositions (makenode c cur best.axis) best.axis
        best.firstL.toNat best.lastL.toNat best.firstR.toNat best.lastR.toNat).pos.getD i 1 =
      if i ∈ slice ((markPositions (makenode c cur best.axis) best.axis
        best.firstL.toNat best.lastL.toNat best.firstR.toNat best.lastR.toNat).getIds
          best.axis) (jb + 1) cur.last then ONRIGHT else ONLEFT := by
    intro i hi
    rw [hgidscc] at hi
    rw [hgidscc]
    have hin : i < c.n :=
      hmemlt best.axis hA0 i ((slice_sublist _ _ _).subset hi)
    have hstep := markPositions_getD (makenode c cur best.axis) best.axis
      best.firstL.toNat best.lastL.toNat best.firstR.toNat best.lastR.toNat i
      (by rw [hfLn, hlLn]; omega)
      (by rw [makenode_getIds, hlen3 _ hA0, hlLn]; omega)
      (by rw [hfRn, hlRn]; omega)
      (by rw [makenode_getIds, hlen3 _ hA0, hlRn]; omega)
      (by rw [makenode_pos, hposlen]; exact hin)
    rw [makenode_getIds] at hstep
    rw [getD_irrel _ i 1 0 (by rw [hccposlen]; exact hin), hstep,
      hfLn, hlLn, hfRn, hlRn]
    by_cases hiR : i ∈ slice (c.getIds best.axis) (jb + 1) cur.last
    · rw [if_pos hiR, if_pos hiR]
    · rw [if_neg hiR, if_neg hiR]
      have hiL : i ∈ slice (c.getIds best.axis) cur.first jb := by
        rw [slice_decomp _ cur.first jb cur.last hjb1 hjb2] at hi
        rcases List.mem_append.mp hi with h | h
        · exact h
        · exact absurd h hiR
      rw [if_pos hiL]
  -- the reorder contract
  obtain ⟨hn1, hn2, hkeepA, hb3⟩ := reorderBoth_spec
    (markPositions (makenode c cur best.axis) best.axis
      best.firstL.toNat best.lastL.toNat best.firstR.toNat best.lastR.toNat)
    best.axis cur.first jb cur.last hA0 hjb1 hjb2
    (by intro b hb; rw [hgidscc, hlen3 b hb]; exact hcln)
    (by rw [hgidscc]
        exact List.Nodup.sublist (slice_sublist _ _ _) (hnd3 _ hA0))
    (by intro b hb
        rw [hgidscc, hgidscc]
        exact ((hcax b hb).1).trans ((hcax best.axis hA0).1).symm)
    hposcc
  simp only [hgidscc] at hkeepA hb3
  -- explicit form of the reordered state
  obtain ⟨i0, i1, i2, hsh⟩ := reorderBoth_shape
    (markPositions (makenode c cur best.axis) best.axis
      best.firstL.toNat best.lastL.toNat best.firstR.toNat best.lastR.toNat)
    best.axis cur.first cur.last
  have hr1 : (reorderBoth
      (markPositions (makenode c cur best.axis) best.axis
        best.firstL.toNat best.lastL.toNat best.firstR.toNat best.lastR.toNat)
      best.axis cur.first cur.last).1 =
      { c with
        ids0 := i0, ids1 := i1, ids2 := i2,
        pos := (markPositions (makenode c cur best.axis) best.axis
          best.firstL.toNat best.lastL.toNat best.firstR.toNat best.lastR.toNat).pos,
        root := (cur.id, ⟨cur.box, NodeData.inner best.axis (c.currid + 1 - cur.id)⟩) :: c.root,
        nodenum := c.nodenum + 1,
        edges := c.edges ++ [(cur.id, c.currid + 1, c.currid + 2)] } := by
    rw [hsh]
    rfl
  -- projections of the final state
  have hc4n : (splitStep c cur best stack.length).1.n = c.n := by
    show (reorderBoth (markPositions (makenode c cur best.axis) best.axis
      best.firstL.toNat best.lastL.toNat best.firstR.toNat best.lastR.toNat)
      best.axis cur.first cur.last).1.n = c.n
    rw [hr1]
  have hc4cfg : (splitStep c cur best stack.length).1.cfg = c.cfg := by
    show (reorderBoth (markPositions (makenode c cur best.axis) best.axis
      best.firstL.toNat best.lastL.toNat best.firstR.toNat best.lastR.toNat)
      best.axis cur.first cur.last).1.cfg = c.cfg
    rw [hr1]
  have hc4prims : (splitStep c cur best stack.length).1.prims = c.prims := by
    show (reorderBoth (markPositions (makenode c cur best.axis) best.axis
      best.firstL.toNat best.lastL.toNat best.firstR.toNat best.lastR.toNat)
      best.axis cur.first cur.last).1.prims = c.prims
    rw [hr1]
  have hc4boxes : (splitStep c cur best stack.length).1.boxes = c.boxes := by
    show (reorderBoth (markPositions (makenode c cur best.axis) best.axis
      best.firstL.toNat best.lastL.toNat best.firstR.toNat best.lastR.toNat)
      best.axis cur.first cur.last).1.boxes = c.boxes
    rw [hr1]
  have hc4istri : (splitStep c cur best stack.length).1.istri = c.istri := by
    show (reorderBoth (markPositions (makenode c cur best.axis) best.axis
      best.firstL.toNat best.lastL.toNat best.firstR.toNat best.lastR.toNat)
      best.axis cur.first cur.last).1.istri = c.istri
    rw [hr1]
  have hc4cent : (splitStep c cur best stack.length).1.centroids = c.centroids := by
    show (reorderBoth (markPositions (makenode c cur best.axis) best.axis
      best.firstL.toNat best.lastL.toNat best.firstR.toNat best.lastR.toNat)
      best.axis cur.first cur.last).1.centroids = c.centroids
    rw [hr1]
  have hc4pos : (splitStep c cur best stack.length).1.pos =
      (markPositions (makenode c cur best.axis) best.axis
        best.firstL.toNat best.lastL.toNat best.firstR.toNat best.lastR.toNat).pos := by
    show (reorderBoth (markPositions (makenode c cur best.axis) best.axis
      best.firstL.toNat best.lastL.toNat best.firstR.toNat best.lastR.toNat)
      best.axis cur.first cur.last).1.pos = _
    rw [hr1]
  have hc4root : (splitStep c cur best stack.length).1.root =
      (cur.id, ⟨cur.box, NodeData.inner best.axis (c.currid + 1 - cur.id)⟩) :: c.root := by
    show (reorderBoth (markPositions (makenode c cur best.axis) best.axis
      best.firstL.toNat best.lastL.toNat best.firstR.toNat best.lastR.toNat)
      best.axis cur.first cur.last).1.root = _
    rw [hr1]
  have hc4edges : (splitStep c cur best stack.length).1.edges =
      c.edges ++ [(cur.id, c.currid + 1, c.currid + 2)] := by
    show (reorderBoth (markPositions (makenode c cur best.axis) best.axis
      best.firstL.toNat best.lastL.toNat best.firstR.toNat best.lastR.toNat)
      best.axis cur.first cur.last).1.edges = _
    rw [hr1]
  have hc4currid : (splitStep c cur best stack.length).1.currid = c.currid + 2 := by
    show (reorderBoth (markPositions (makenode c cur best.axis) best.axis
      best.firstL.toNat best.lastL.toNat best.firstR.toNat best.lastR.toNat)
      best.axis cur.first cur.last).1.currid + 2 = c.currid + 2
    rw [hr1]
  have hc4max : (splitStep c cur best stack.length).1.maxstack =
      max c.maxstack (stack.length + 1) := by
    show max (reorderBoth (markPositions (makenode c cur best.axis) best.axis
      best.firstL.toNat best.lastL.toNat best.firstR.toNat best.lastR.toNat)
      best.axis cur.first cur.last).1.maxstack (stack.length + 1) = _
    rw [hr1]
  have hc4pushes : (splitStep c cur best stack.length).1.pushes =
      c.pushes ++ [((splitStep c cur best stack.length).2.2.sz,
        (splitStep c cur best stack.length).2.1.sz)] := by
    show (reorderBoth (markPositions (makenode c cur best.axis) best.axis
      best.firstL.toNat best.lastL.toNat best.firstR.toNat best.lastR.toNat)
      best.axis cur.first cur.last).1.pushes ++ _ = _
    rw [hr1]
    rfl
  have hc4acc : (splitStep c cur best stack.length).1.acc = c.acc := by
    show (reorderBoth (markPositions (makenode c cur best.axis) best.axis
      best.firstL.toNat best.lastL.toNat best.firstR.toNat best.lastR.toNat)
      best.axis cur.first cur.last).1.acc = c.acc
    rw [hr1]
  have hc4lrecs : (splitStep c cur best stack.length).1.leafrecs = c.leafrecs := by
    show (reorderBoth (markPositions (makenode c cur best.axis) best.axis
      best.firstL.toNat best.lastL.toNat best.firstR.toNat best.lastR.toNat)
      best.axis cur.first cur.last).1.leafrecs = c.leafrecs
    rw [hr1]
  have hc4gids : ∀ b, (splitStep c cur best stack.length).1.getIds b =
      (reorderBoth (markPositions (makenode c cur best.axis) best.axis
        best.firstL.toNat best.lastL.toNat best.firstR.toNat best.lastR.toNat)
        best.axis cur.first cur.last).1.getIds b := by
    intro b
    rcases b with _ | _ | b <;> rfl
  have hc4ids0 : (splitStep c cur best stack.length).1.ids0 =
      (reorderBoth (markPositions (makenode c cur best.axis) best.axis
        best.firstL.toNat best.lastL.toNat best.firstR.toNat best.lastR.toNat)
        best.axis cur.first cur.last).1.getIds 0 := rfl
  -- the two sub-segments
  have hsegcases :
      (((splitStep c cur best stack.length).2.1 =
          ⟨cur.first, jb, c.currid + 1, best.boxL⟩ ∧
        (splitStep c cur best stack.length).2.2 =
          ⟨jb + 1, cur.last, c.currid + 2, best.boxR⟩ ∧
        jb + 1 - cur.first < cur.last - jb) ∨
       ((splitStep c cur best stack.length).2.1 =
          ⟨jb + 1, cur.last, c.currid + 2, best.boxR⟩ ∧
        (splitStep c cur best stack.length).2.2 =
          ⟨cur.first, jb, c.currid + 1, best.boxL⟩ ∧
        cur.last - jb ≤ jb + 1 - cur.first)) := by
    simp only [splitStep]
    simp only [hn1, hn2]
    by_cases hcmp : cur.last - jb > jb + 1 - cur.first
    · left
      simp only [if_pos hcmp]
      refine ⟨?_, ?_, hcmp⟩
      · simp only [firstOf_left, lastOf_left, boxOf_left, hr1]
        congr 1
      · simp only [firstOf_right, lastOf_right, boxOf_right, hr1]
        congr 1
    · right
      simp only [if_neg hcmp]
      refine ⟨?_, ?_, by omega⟩
      · simp only [firstOf_right, lastOf_right, boxOf_right, hr1]
        congr 1
      · simp only [firstOf_left, lastOf_left, boxOf_left, hr1]
        congr 1
  -- size bookkeeping of the two sides
  have hszsum : (splitStep c cur best stack.length).2.1.sz +
        (splitStep c cur best stack.length).2.2.sz = cur.sz ∧
      1 ≤ (splitStep c cur best stack.length).2.1.sz ∧
      1 ≤ (splitStep c cur best stack.length).2.2.sz ∧
      (splitStep c cur best stack.length).2.1.sz ≤
        (splitStep c cur best stack.length).2.2.sz := by
    rcases hsegcases with ⟨h1, h2, h3⟩ | ⟨h1, h2, h3⟩ <;>
      rw [h1, h2] <;> simp only [Segment.sz] <;>
      refine ⟨?_, ?_, ?_, ?_⟩ <;> omega
  -- the boxes of the two sides are the unions over the new sub-slices
  have hboxLu : best.boxL = unionB c.boxes
      (slice ((reorderBoth (markPositions (makenode c cur best.axis) best.axis
        best.firstL.toNat best.lastL.toNat best.firstR.toNat best.lastR.toNat)
        best.axis cur.first cur.last).1.getIds 0) cur.first jb) := by
    rw [hbL, lbox_eq c best.axis cur.first (jb + 1 - cur.first)
      (by rw [hlen3 _ hA0]; omega), ← slice_eq_sliceLen]
    exact (unionB_perm c.boxes _ _ (hb3 0 (by omega)).2.1).symm
  have hboxRu : best.boxR = unionB c.boxes
      (slice ((reorderBoth (markPositions (makenode c cur best.axis) best.axis
        best.firstL.toNat best.lastL.toNat best.firstR.toNat best.lastR.toNat)
        best.axis cur.first cur.last).1.getIds 0) (jb + 1) cur.last) := by
    rw [hbR, rlbox_eq c best.axis hBdd (cur.last - (jb + 1)) (jb + 1)
      (by rw [hlen3 _ hA0]; omega)
      (fun k hk => by rw [hblen]; exact hidlt best.axis hA0 _ (by omega))]
    have he : cur.last - (jb + 1) + 1 = cur.last + 1 - (jb + 1) := by omega
    rw [he, ← slice_eq_sliceLen]
    exact (unionB_perm c.boxes _ _ (hb3 0 (by omega)).2.2.1).symm
  -- the two fresh segments satisfy the per-segment invariant
  have hokL : SegOK (splitStep c cur best stack.length).1
      ⟨cur.first, jb, c.currid + 1, best.boxL⟩ := by
    refine ⟨hjb1, ?_, ?_, ?_, ?_⟩
    · show jb < (splitStep c cur best stack.length).1.n
      rw [hc4n]; omega
    · show c.currid + 1 ≤ (splitStep c cur best stack.length).1.currid
      rw [hc4currid]; omega
    · show best.boxL = unionB (splitStep c cur best stack.length).1.boxes
        (slice (splitStep c cur best stack.length).1.ids0 cur.first jb)
      rw [hc4boxes, hc4ids0]
      exact hboxLu
    · intro a ha
      constructor
      · show List.Perm
          (slice ((splitStep c cur best stack.length).1.getIds a) cur.first jb)
          (slice (splitStep c cur best stack.length).1.ids0 cur.first jb)
        rw [hc4gids, hc4ids0]
        exact ((hb3 a ha).2.1).trans ((hb3 0 (by omega)).2.1).symm
      · show List.Sorted (centLe (splitStep c cur best stack.length).1.centroids a)
          (slice ((splitStep c cur best stack.length).1.getIds a) cur.first jb)
        rw [hc4cent, hc4gids]
        exact List.Pairwise.sublist (hb3 a ha).2.2.2.1 ((hcax a ha).2)
  have hokR : SegOK (splitStep c cur best stack.length).1
      ⟨jb + 1, cur.last, c.currid + 2, best.boxR⟩ := by
    refine ⟨hjb2, ?_, ?_, ?_, ?_⟩
    · show cur.last < (splitStep c cur best stack.length).1.n
      rw [hc4n]; omega
    · show c.currid + 2 ≤ (splitStep c cur best stack.length).1.currid
      rw [hc4currid]
    · show best.boxR = unionB (splitStep c cur best stack.length).1.boxes
        (slice (splitStep c cur best stack.length).1.ids0 (jb + 1) cur.last)
      rw [hc4boxes, hc4ids0]
      exact hboxRu
    · intro a ha
      constructor
      · show List.Perm
          (slice ((splitStep c cur best stack.length).1.getIds a) (jb + 1) cur.last)
          (slice (splitStep c cur best stack.length).1.ids0 (jb + 1) cur.last)
        rw [hc4gids, hc4ids0]
        exact ((hb3 a ha).2.2.1).trans ((hb3 0 (by omega)).2.2.1).symm
      · show List.Sorted (centLe (splitStep c cur best stack.length).1.centroids a)
          (slice ((splitStep c cur best stack.length).1.getIds a) (jb + 1) cur.last)
        rw [hc4cent, hc4gids]
        exact List.Pairwise.sublist (hb3 a ha).2.2.2.2.1 ((hcax a ha).2)
  -- deferred segments of the stack are untouched
  have hsliceStack : ∀ s ∈ stack, ∀ b, b < 3 →
      slice ((reorderBoth (markPositions (makenode c cur best.axis) best.axis
        best.firstL.toNat best.lastL.toNat best.firstR.toNat best.lastR.toNat)
        best.axis cur.first cur.last).1.getIds b) s.first s.last =
      slice (c.getIds b) s.first s.last := by
    intro s hs b hb
    have hd : Disj cur s := (List.pairwise_cons.mp hDisj).1 s hs
    refine (hb3 b hb).2.2.2.2.2 s.first s.last ?_
    rcases hd with h | h
    · right; exact h
    · left; exact h
  have hokStack : ∀ s ∈ stack, SegOK (splitStep c cur best stack.length).1 s := by
    intro s hs
    obtain ⟨h1, h2, h3, h4, h5⟩ := hstackOK s hs
    refine ⟨h1, ?_, ?_, ?_, ?_⟩
    · rw [hc4n]; exact h2
    · rw [hc4currid]; omega
    · show s.box = unionB (splitStep c cur best stack.length).1.boxes
        (slice ((splitStep c cur best stack.length).1.getIds 0) s.first s.last)
      rw [hc4boxes, hc4gids, hsliceStack s hs 0 (by omega)]
      exact h4
    · intro a ha
      constructor
      · show List.Perm
          (slice ((splitStep c cur best stack.length).1.getIds a) s.first s.last)
          (slice ((splitStep c cur best stack.length).1.getIds 0) s.first s.last)
        rw [hc4gids, hc4gids, hsliceStack s hs a ha, hsliceStack s hs 0 (by omega)]
        exact (h5 a ha).1
      · show List.Sorted (centLe (splitStep c cur best stack.length).1.centroids a)
          (slice ((splitStep c cur best stack.length).1.getIds a) s.first s.last)
        rw [hc4cent, hc4gids, hsliceStack s hs a ha]
        exact (h5 a ha).2
  -- ids of the fresh segments
  have hidvals : ((splitStep c cur best stack.length).2.1.id = c.currid + 1 ∧
        (splitStep c cur best stack.length).2.2.id = c.currid + 2) ∨
      ((splitStep c cur best stack.length).2.1.id = c.currid + 2 ∧
        (splitStep c cur best stack.length).2.2.id = c.currid + 1) := by
    rcases hsegcases with ⟨h1, h2, -⟩ | ⟨h1, h2, -⟩
    · exact Or.inl ⟨by rw [h1], by rw [h2]⟩
    · exact Or.inr ⟨by rw [h1], by rw [h2]⟩
  have hcurid_not : cur.id ∉ stack.map Segment.id ∧ (stack.map Segment.id).Nodup :=
    List.nodup_cons.mp (by simpa using hNd)
  have hstackid : ∀ s ∈ stack, s.id ≤ c.currid := fun s hs => (hstackOK s hs).2.2.1
  -- the invariant for the new state and live list
  have hInv4 : Inv (splitStep c cur best stack.length).1
      ((splitStep c cur best stack.length).2.1 ::
        (splitStep c cur best stack.length).2.2 :: stack) := by
    refine ⟨⟨?_, ?_, ?_, ?_, ?_, ?_⟩, ?_, ?_, ?_, ?_, ?_, ?_, ?_, ?_⟩
    · rw [hc4prims, hc4n]; exact hplen
    · rw [hc4boxes, hc4prims]; exact hbx
    · rw [hc4istri, hc4prims]; exact hit
    · rw [hc4pos, hc4n]; exact hccposlen
    · intro a ha
      rw [hc4gids, hc4n]
      exact ((hb3 a ha).1).trans (hperm3 a ha)
    · rw [hc4boxes]; exact hBdd
    · -- SegOK for every live segment
      intro s hs
      rcases List.mem_cons.mp hs with rfl | hs1
      · rcases hsegcases with ⟨h1, -, -⟩ | ⟨h1, -, -⟩
        · rw [h1]; exact hokL
        · rw [h1]; exact hokR
      rcases List.mem_cons.mp hs1 with rfl | hs2
      · rcases hsegcases with ⟨-, h2, -⟩ | ⟨-, h2, -⟩
        · rw [h2]; exact hokR
        · rw [h2]; exact hokL
      · exact hokStack s hs2
    · -- pairwise disjoint ranges
      refine List.pairwise_cons.mpr ⟨?_, List.pairwise_cons.mpr
        ⟨?_, (List.pairwise_cons.mp hDisj).2⟩⟩
      · intro t ht
        rcases List.mem_cons.mp ht with rfl | ht2
        · rcases hsegcases with ⟨h1, h2, -⟩ | ⟨h1, h2, -⟩
          · rw [h1, h2]; exact Or.inl (show jb < jb + 1 by omega)
          · rw [h1, h2]; exact Or.inr (show jb < jb + 1 by omega)
        · have hd : Disj cur t := (List.pairwise_cons.mp hDisj).1 t ht2
          rcases hsegcases with ⟨h1, -, -⟩ | ⟨h1, -, -⟩
          · rw [h1]
            rcases hd with h | h
            · exact Or.inl (show jb < t.first by omega)
            · exact Or.inr (show t.last < cur.first by omega)
          · rw [h1]
            rcases hd with h | h
            · exact Or.inl (show cur.last < t.first by omega)
            · exact Or.inr (show t.last < jb + 1 by omega)
      · intro t ht
        have hd : Disj cur t := (List.pairwise_cons.mp hDisj).1 t ht
        rcases hsegcases with ⟨-, h2, -⟩ | ⟨-, h2, -⟩
        · rw [h2]
          rcases hd with h | h
          · exact Or.inl (show cur.last < t.first by omega)
          · exact Or.inr (show t.last < jb + 1 by omega)
        · rw [h2]
          rcases hd with h | h
          · exact Or.inl (show jb < t.first by omega)
          · exact Or.inr (show t.last < cur.first by omega)
    · -- distinct reserved slots
      refine List.nodup_cons.mpr ⟨?_, List.nodup_cons.mpr ⟨?_, hcurid_not.2⟩⟩
      · intro hmem
        rcases List.mem_cons.mp hmem with heq | hmem2
        · rcases hidvals with ⟨ha1, ha2⟩ | ⟨ha1, ha2⟩ <;> omega
        · rcases List.mem_map.mp hmem2 with ⟨s, hs, hse⟩
          have := hstackid s hs
          rcases hidvals with ⟨ha1, -⟩ | ⟨ha1, -⟩ <;> omega
      · intro hmem
        rcases List.mem_map.mp hmem with ⟨s, hs, hse⟩
        have := hstackid s hs
        rcases hidvals with ⟨-, ha2⟩ | ⟨-, ha2⟩ <;> omega
    · -- NodesInv
      constructor
      · intro p hp
        rw [hc4root] at hp
        rw [hc4currid]
        rcases List.mem_cons.mp hp with rfl | hp2
        · show cur.id ≤ c.currid + 2
          omega
        · have := hNodes.1 p hp2
          omega
      · intro s hs p hp
        rw [hc4root] at hp
        rcases List.mem_cons.mp hs with rfl | hs1
        · have hid : (splitStep c cur best stack.length).2.1.id = c.currid + 1 ∨
              (splitStep c cur best stack.length).2.1.id = c.currid + 2 := by
            rcases hidvals with ⟨h, -⟩ | ⟨h, -⟩
            exacts [Or.inl h, Or.inr h]
          rcases List.mem_cons.mp hp with rfl | hp2
          · show cur.id ≠ (splitStep c cur best stack.length).2.1.id
            rcases hid with h | h <;> omega
          · have := hNodes.1 p hp2
            rcases hid with h | h <;> omega
        rcases List.mem_cons.mp hs1 with rfl | hs2
        · have hid : (splitStep c cur best stack.length).2.2.id = c.currid + 1 ∨
              (splitStep c cur best stack.length).2.2.id = c.currid + 2 := by
            rcases hidvals with ⟨-, h⟩ | ⟨-, h⟩
            exacts [Or.inr h, Or.inl h]
          rcases List.mem_cons.mp hp with rfl | hp2
          · show cur.id ≠ (splitStep c cur best stack.length).2.2.id
            rcases hid with h | h <;> omega
          · have := hNodes.1 p hp2
            rcases hid with h | h <;> omega
        · rcases List.mem_cons.mp hp with rfl | hp2
          · show cur.id ≠ s.id
            intro he
            exact hcurid_not.1 (he ▸ List.mem_map_of_mem Segment.id hs2)
          · exact hNodes.2 s (List.mem_cons_of_mem _ hs2) p hp2
    · -- EdgeInv
      intro e he
      rw [hc4edges] at he
      rcases List.mem_append.mp he with hold | hnew
      · obtain ⟨ax, off, hoff, ⟨bx, hnode⟩, he1, he2, hch1, hch2⟩ := hEdge e hold
        have hne : e.1 ≠ cur.id := by
          intro hq
          have hmem := getNode_some_mem c e.1 _ hnode
          rw [hq] at hmem
          rcases List.mem_map.mp hmem with ⟨p, hp, hpe⟩
          exact hNodes.2 cur (List.mem_cons_self _ _) p hp hpe
        have hgete : (splitStep c cur best stack.length).1.getNode e.1 =
            c.getNode e.1 := by
          unfold BState.getNode
          rw [hc4root, List.find?_cons_of_neg]
          simp only [beq_iff_eq]
          exact Ne.symm hne
        refine ⟨ax, off, hoff, ⟨bx, by rw [hgete]; exact hnode⟩, he1, he2, ?_, ?_⟩
        · rcases hch1 with hw | ⟨s, hs, hside⟩
          · left
            rw [hc4root, List.map_cons]
            exact List.mem_cons_of_mem _ hw
          · rcases List.mem_cons.mp hs with rfl | hs2
            · left
              rw [hc4root, List.map_cons, ← hside]
              exact List.mem_cons_self _ _
            · right
              exact ⟨s, List.mem_cons_of_mem _ (List.mem_cons_of_mem _ hs2), hside⟩
        · rcases hch2 with hw | ⟨s, hs, hside⟩
          · left
            rw [hc4root, List.map_cons]
            exact List.mem_cons_of_mem _ hw
          · rcases List.mem_cons.mp hs with rfl | hs2
            · left
              rw [hc4root, List.map_cons, ← hside]
              exact List.mem_cons_self _ _
            · right
              exact ⟨s, List.mem_cons_of_mem _ (List.mem_cons_of_mem _ hs2), hside⟩
      · have he' : e = (cur.id, c.currid + 1, c.currid + 2) := by simpa using hnew
        subst he'
        refine ⟨best.axis, c.currid + 1 - cur.id, by omega, ⟨cur.box, ?_⟩,
          by show c.currid + 1 = cur.id + (c.currid + 1 - cur.id); omega,
          by show c.currid + 2 = cur.id + (c.currid + 1 - cur.id) + 1; omega,
          ?_, ?_⟩
        · unfold BState.getNode
          rw [hc4root, List.find?_cons_of_pos _ (by simp)]
          rfl
        · right
          rcases hidvals with ⟨h1, -⟩ | ⟨-, h2⟩
          · exact ⟨(splitStep c cur best stack.length).2.1,
              List.mem_cons_self _ _, h1⟩
          · exact ⟨(splitStep c cur best stack.length).2.2,
              List.mem_cons_of_mem _ (List.mem_cons_self _ _), h2⟩
        · right
          rcases hidvals with ⟨-, h2⟩ | ⟨h1, -⟩
          · exact ⟨(splitStep c cur best stack.length).2.2,
              List.mem_cons_of_mem _ (List.mem_cons_self _ _), h2⟩
          · exact ⟨(splitStep c cur best stack.length).2.1,
              List.mem_cons_self _ _, h1⟩
    · -- PushInv
      intro p hp
      rw [hc4pushes] at hp
      rcases List.mem_append.mp hp with hp1 | hp2
      · exact hPush p hp1
      · have := List.mem_singleton.mp hp2
        subst this
        exact hszsum.2.2.2
    · -- LeafInv
      constructor
      · intro L hL
        rw [hc4lrecs] at hL
        have hfacts := hLeaf.1 L hL
        refine ⟨hfacts.1, ?_, ?_⟩
        · intro hI
          obtain ⟨i, hp1, hp2⟩ := hfacts.2.1 hI
          refine ⟨i, hp1, ?_⟩
          show ((splitStep c cur best stack.length).1.primAt i).istri = false
          unfold BState.primAt
          rw [hc4prims]
          exact hp2
        · intro hI i hi
          have := hfacts.2.2 hI i hi
          show ((splitStep c cur best stack.length).1.primAt i).istri = true
          unfold BState.primAt
          rw [hc4prims]
          exact this
      · rw [hc4acc, hc4lrecs, hc4prims]
        exact hLeaf.2
    · -- MaxInv
      intro hn
      rw [hc4n] at hn
      rw [hc4max]
      have h1 : c.maxstack ≤ 64 := hMax hn
      have hsz2 : 2 ≤ cur.sz := by
        unfold Segment.sz
        omega
      have hb := goodFrom_bound c.n stack cur.sz hgf (by omega)
      have hpow : 2 ^ (stack.length + 1) ≤ 2 ^ 64 := by
        calc 2 ^ (stack.length + 1) = 2 ^ stack.length * 2 := by rw [pow_succ]
          _ ≤ 2 ^ stack.length * cur.sz := Nat.mul_le_mul_left _ hsz2
          _ ≤ c.n := hb
          _ ≤ 2 ^ 64 := hn
      have hlen64 : stack.length + 1 ≤ 64 := by
        by_contra hcon
        push_neg at hcon
        have h65 : 2 ^ 65 ≤ 2 ^ (stack.length + 1) :=
          Nat.pow_le_pow_right (by omega) (by omega)
        have h265 : (2 : ℕ) ^ 64 < 2 ^ 65 := by norm_num
        omega
      exact max_le h1 hlen64
  refine ⟨hInv4, ?_, hszsum.1, hszsum.2.1, hszsum.2.2.1, hc4n, hc4cfg, hc4prims⟩
  show (splitStep c cur best stack.length).2.1.sz ≤
      (splitStep c cur best stack.length).2.2.sz ∧
    goodFrom (splitStep c cur best stack.length).1.n stack
      ((splitStep c cur best stack.length).2.2.sz +
        (splitStep c cur best stack.length).2.1.sz)
  refine ⟨hszsum.2.2.2, ?_⟩
  rw [hc4n]
  have hsum2 : (splitStep c cur best stack.length).2.2.sz +
      (splitStep c cur best stack.length).2.1.sz = cur.sz := by
    have := hszsum.1
    omega
  rw [hsum2]
  exact hgf

/-- Invariant preservation for the common shape of the two `makeleaf`
branches. -/
theorem leaf_update_preserves (c : BState) (cur : Segment) (stack : List Segment)
    (hInv : Inv c (cur :: stack))
    (nd : NodeData) (accAdd : List Wald) (L : LeafRec)
    (hLcnt : L.cnt = L.pids.length)
    (hLisec : L.isIsec = true → ∃ i, L.pids = [i] ∧ (c.primAt i).istri = false)
    (hLtri : L.isIsec = false → ∀ i ∈ L.pids, (c.primAt i).istri = true)
    (hacc : accAdd = buildAcc c.prims [L]) :
    Inv { c with
      root := (cur.id, ⟨cur.box, nd⟩) :: c.root,
      acc := c.acc ++ accAdd,
      leafnum := c.leafnum + 1,
      nodenum := c.nodenum + 1,
      leafrecs := c.leafrecs ++ [L] } stack := by
  obtain ⟨hG, hSegs, hDisj, hNd, hNodes, hEdge, hPush, hLeaf, hMax⟩ := hInv
  obtain ⟨hplen, hbx, hit, hposlen, hperm3, hBdd⟩ := hG
  have hcurOK := hSegs cur (List.mem_cons_self _ _)
  have hcurid_not : cur.id ∉ stack.map Segment.id ∧ (stack.map Segment.id).Nodup :=
    List.nodup_cons.mp (by simpa using hNd)
  refine ⟨⟨hplen, hbx, hit, hposlen, ?_, hBdd⟩, ?_, ?_, hcurid_not.2, ?_, ?_, hPush, ?_, hMax⟩
  · intro a ha
    interval_cases a
    · exact hperm3 0 (by omega)
    · exact hperm3 1 (by omega)
    · exact hperm3 2 (by omega)
  · intro s hs
    obtain ⟨h1, h2, h3, h4, h5⟩ := hSegs s (List.mem_cons_of_mem _ hs)
    refine ⟨h1, h2, h3, h4, ?_⟩
    intro a ha
    interval_cases a
    · exact h5 0 (by omega)
    · exact h5 1 (by omega)
    · exact h5 2 (by omega)
  · exact (List.pairwise_cons.mp hDisj).2
  · constructor
    · intro p hp
      rcases List.mem_cons.mp hp with rfl | hp2
      · exact hcurOK.2.2.1
      · exact hNodes.1 p hp2
    · intro s hs p hp
      rcases List.mem_cons.mp hp with rfl | hp2
      · show cur.id ≠ s.id
        intro he
        exact hcurid_not.1 (he ▸ List.mem_map_of_mem Segment.id hs)
      · exact hNodes.2 s (List.mem_cons_of_mem _ hs) p hp2
  · intro e he
    obtain ⟨ax, off, hoff, ⟨bx, hnode⟩, he1, he2, hch1, hch2⟩ := hEdge e he
    have hne : e.1 ≠ cur.id := by
      intro hq
      have hmem := getNode_some_mem c e.1 _ hnode
      rw [hq] at hmem
      rcases List.mem_map.mp hmem with ⟨p, hp, hpe⟩
      exact hNodes.2 cur (List.mem_cons_self _ _) p hp hpe
    have hgete : ({ c with
        root := (cur.id, (⟨cur.box, nd⟩ : Node)) :: c.root,
        acc := c.acc ++ accAdd,
        leafnum := c.leafnum + 1,
        nodenum := c.nodenum + 1,
        leafrecs := c.leafrecs ++ [L] } : BState).getNode e.1 = c.getNode e.1 := by
      unfold BState.getNode
      show (((cur.id, (⟨cur.box, nd⟩ : Node)) :: c.root).find? (fun p => p.1 == e.1)).map
        Prod.snd = _
      rw [List.find?_cons_of_neg]
      simp only [beq_iff_eq]
      exact Ne.symm hne
    refine ⟨ax, off, hoff, ⟨bx, by rw [hgete]; exact hnode⟩, he1, he2, ?_, ?_⟩
    · rcases hch1 with hw | ⟨s, hs, hside⟩
      · left
        exact List.mem_cons_of_mem _ hw
      · rcases List.mem_cons.mp hs with rfl | hs2
        · left
          rw [← hside]
          exact List.mem_cons_self _ _
        · right
          exact ⟨s, hs2, hside⟩
    · rcases hch2 with hw | ⟨s, hs, hside⟩
      · left
        exact List.mem_cons_of_mem _ hw
      · rcases List.mem_cons.mp hs with rfl | hs2
        · left
          rw [← hside]
          exact List.mem_cons_self _ _
        · right
          exact ⟨s, hs2, hside⟩
  · constructor
    · intro L' hL'
      rcases List.mem_append.mp hL' with h1 | h2
      · exact hLeaf.1 L' h1
      · have := List.mem_singleton.mp h2
        subst this
        exact ⟨hLcnt, hLisec, hLtri⟩
    · show c.acc ++ accAdd = buildAcc c.prims (c.leafrecs ++ [L])
      rw [buildAcc_append, ← hLeaf.2, hacc]

/-- `makeleaf` preserves the invariant whenever either the range is a
singleton or all its primitives are triangles — the only two situations
the driver calls it in. -/
theorem makeleaf_preserves (c : BState) (cur : Segment) (stack : List Segment)
    (hInv : Inv c (cur :: stack))
    (htris : cur.first = cur.last ∨
      (∀ i ∈ slice c.ids0 cur.first cur.last, (c.primAt i).istri = true)) :
    Inv (makeleaf c cur) stack := by
  have hcurOK := hInv.2.1 cur (List.mem_cons_self _ _)
  obtain ⟨hcfl, hcln, -, -, -⟩ := hcurOK
  have hlen0 : c.ids0.length = c.n :=
    (hInv.1.2.2.2.2.1 0 (by omega)).length_eq.trans (List.length_range _)
  have hfirstmem : c.idAt 0 cur.first ∈ slice c.ids0 cur.first cur.last := by
    rw [slice_eq_sliceLen, mem_sliceLen_iff _ _ _ _ (by omega)]
    exact ⟨0, by omega, by rw [Nat.add_zero]; rfl⟩
  by_cases hbr : (c.primAt (c.idAt 0 cur.first)).istri = false
  · -- sub-intersector leaf
    have hml : makeleaf c cur = { c with
        root := (cur.id, ⟨cur.box, NodeData.isecleaf (c.idAt 0 cur.first)⟩) :: c.root,
        acc := c.acc ++ [],
        leafnum := c.leafnum + 1,
        nodenum := c.nodenum + 1,
        leafrecs := c.leafrecs ++
          [⟨slice c.ids0 cur.first cur.last, cur.last - cur.first + 1, true⟩] } := by
      simp only [makeleaf]
      rw [if_pos hbr, List.append_nil]
    have hsing : cur.first = cur.last := by
      rcases htris with h | h
      · exact h
      · exact absurd (h _ hfirstmem) (by rw [hbr]; simp)
    have hpids : slice c.ids0 cur.first cur.last = [c.ids0.getD cur.first 0] := by
      rw [← hsing, slice_eq_sliceLen, show cur.first + 1 - cur.first = 1 by omega,
        sliceLen_cons _ _ _ (by omega), sliceLen_zero]
    rw [hml]
    refine leaf_update_preserves c cur stack hInv _ _ _ ?_ ?_ ?_ rfl
    · show cur.last - cur.first + 1 = (slice c.ids0 cur.first cur.last).length
      rw [hpids]
      simp
      omega
    · intro _
      refine ⟨c.ids0.getD cur.first 0, ?_, ?_⟩
      · show slice c.ids0 cur.first cur.last = _
        rw [hpids]
      · exact hbr
    · intro h
      exact absurd h (by simp)
  · -- triangle leaf
    have htri : ∀ i ∈ slice c.ids0 cur.first cur.last, (c.primAt i).istri = true := by
      rcases htris with h | h
      · intro i hi
        have hbr' : (c.primAt (c.idAt 0 cur.first)).istri = true := by
          rcases hb : (c.primAt (c.idAt 0 cur.first)).istri
          · exact absurd hb hbr
          · rfl
        have hpids : slice c.ids0 cur.first cur.last = [c.ids0.getD cur.first 0] := by
          rw [← h, slice_eq_sliceLen, show cur.first + 1 - cur.first = 1 by omega,
            sliceLen_cons _ _ _ (by omega), sliceLen_zero]
        rw [hpids] at hi
        have := List.mem_singleton.mp hi
        subst this
        exact hbr'
      · exact h
    have hml : makeleaf c cur = { c with
        root := (cur.id, ⟨cur.box, NodeData.trileaf c.acc.length⟩) :: c.root,
        acc := c.acc ++ (slice c.ids0 cur.first cur.last).map (fun id =>
          { maketriangle (c.primAt id) id 0 with num := cur.last - cur.first + 1 }),
        leafnum := c.leafnum + 1,
        nodenum := c.nodenum + 1,
        leafrecs := c.leafrecs ++
          [⟨slice c.ids0 cur.first cur.last, cur.last - cur.first + 1, false⟩] } := by
      simp only [makeleaf]
      rw [if_neg hbr]
    rw [hml]
    refine leaf_update_preserves c cur stack hInv _ _ _ ?_ ?_ ?_ ?_
    · show cur.last - cur.first + 1 = (slice c.ids0 cur.first cur.last).length
      rw [slice_length _ _ _ hcfl (by omega)]
      omega
    · intro h
      exact absurd h (by simp)
    · intro _
      exact htri
    · show (slice c.ids0 cur.first cur.last).map _ = buildAcc c.prims [_]
      exact (List.append_nil _).symm

/-- One full inner-loop run from an invariant state: it succeeds within
its fuel, preserves the invariant over the residual stack (producing the
outer form of the size chain), and obeys the fuel measure. -/
theorem grand_inner : ∀ fuel : ℕ, ∀ c : BState, ∀ cur : Segment, ∀ stack : List Segment,
    Inv c (cur :: stack) → goodFrom c.n stack cur.sz →
    2 * cur.sz - 1 ≤ fuel →
    ∃ c' stack', innerLoop fuel c cur stack = some (c', stack') ∧
      Inv c' stack' ∧ OuterGood c'.n stack' ∧
      c'.n = c.n ∧ c'.cfg = c.cfg ∧ c'.prims = c.prims ∧
      stack'.length + μs stack' + 1 ≤ stack.length + (2 * cur.sz - 1) + μs stack := by
  intro fuel
  induction fuel with
  | zero =>
    intro c cur stack hInv hgf hfuel
    exfalso
    have hcfl := (hInv.2.1 cur (List.mem_cons_self _ _)).1
    have : 1 ≤ cur.sz := by unfold Segment.sz; omega
    omega
  | succ fuel ih =>
    intro c cur stack hInv hgf hfuel
    have hcurOK := hInv.2.1 cur (List.mem_cons_self _ _)
    obtain ⟨hcfl, hcln, -, -, hcax⟩ := hcurOK
    have hsz1 : 1 ≤ cur.sz := by unfold Segment.sz; omega
    have houter : ∀ d : BState, d.n = c.n → OuterGood d.n stack := by
      intro d hd
      rw [hd]
      rcases stack with _ | ⟨s, rest⟩
      · exact trivial
      · obtain ⟨hm1, hm2⟩ := hgf
        exact goodFrom_mono c.n rest _ _ hm2 (by omega)
    simp only [innerLoop]
    by_cases hone : (cur.last : Int) - cur.first = 0
    · rw [if_pos hone]
      have heq : cur.first = cur.last := by omega
      have hInv' := makeleaf_preserves c cur stack hInv (Or.inl heq)
      refine ⟨makeleaf c cur, stack, rfl, hInv', houter _ (makeleaf_n c cur),
        makeleaf_n c cur, makeleaf_cfg c cur, ?_, ?_⟩
      · show (makeleaf c cur).prims = c.prims
        simp only [makeleaf]
        split <;> rfl
      · omega
    · rw [if_neg hone]
      have hfl : cur.first < cur.last := by omega
      have hsz2 : 2 ≤ cur.sz := by unfold Segment.sz; omega
      rcases bestOf3_shape c cur.first cur.last hfl with
        ⟨A, jb, hA3, hjb1, hjb2, hax, hfL, hlL, hfR, hlR, hbL, hbR⟩ |
        ⟨A, hA3, hsf, htri_all, htri_last, hmp⟩
      · -- split
        have hsent : ¬ (bestOf3 c cur.first cur.last).firstL = -1 := by
          rw [hfL]
          omega
        rw [if_neg hsent]
        obtain ⟨hInv4, hgf4, hsum, h1le, h2le, hn4, hcfg4, hprims4⟩ :=
          splitStep_preserves c cur stack hInv hgf (bestOf3 c cur.first cur.last)
            A jb (by omega) hjb1 hjb2 hax hfL hlL hfR hlR hbL hbR
        obtain ⟨c', stack', hrun, hI', hO', hn', hcfg', hprims', hμ'⟩ :=
          ih (splitStep c cur (bestOf3 c cur.first cur.last) stack.length).1
            (splitStep c cur (bestOf3 c cur.first cur.last) stack.length).2.1
            ((splitStep c cur (bestOf3 c cur.first cur.last) stack.length).2.2 :: stack)
            hInv4 (by rw [hn4] at hgf4 ⊢; exact hgf4) (by omega)
        refine ⟨c', stack', hrun, hI', hO', hn'.trans hn4, hcfg'.trans hcfg4,
          hprims'.trans hprims4, ?_⟩
        rw [μs_cons] at hμ'
        simp only [List.length_cons] at hμ'
        omega
      · -- sentinel leaf
        rw [if_pos hsf]
        have htris : ∀ i ∈ slice c.ids0 cur.first cur.last,
            (c.primAt i).istri = true := by
          intro i hi
          have hi' : i ∈ slice (c.getIds A) cur.first cur.last :=
            ((hcax A hA3).1).mem_iff.mpr hi
          have hlenA : (c.getIds A).length = c.n :=
            (hInv.1.2.2.2.2.1 A hA3).length_eq.trans (List.length_range _)
          have hin : i < c.n := List.mem_range.mp
            ((hInv.1.2.2.2.2.1 A hA3).mem_iff.mp ((slice_sublist _ _ _).subset hi'))
          rw [slice_eq_sliceLen, mem_sliceLen_iff _ _ _ _ (by omega)] at hi'
          obtain ⟨m, hm, hmi⟩ := hi'
          have hmi' : c.idAt A (cur.first + m) = i := hmi
          have histri : c.istriAt i = true := by
            rcases Nat.lt_or_ge m (cur.last - cur.first) with hc | hc
            · have := (allTri_iff c A cur.first (cur.last - cur.first)).mp htri_all m hc
              rwa [hmi'] at this
            · have hm' : cur.first + m = cur.last := by omega
              rw [hm'] at hmi'
              rwa [hmi'] at htri_last
          show (c.primAt i).istri = true
          unfold BState.istriAt at histri
          rw [hInv.1.2.2.1] at histri
          unfold BState.primAt
          rw [← getD_map_istri c.prims i (by rw [hInv.1.1]; exact hin)]
          exact histri
        have hInv' := makeleaf_preserves c cur stack hInv (Or.inr htris)
        refine ⟨makeleaf c cur, stack, rfl, hInv', houter _ (makeleaf_n c cur),
          makeleaf_n c cur, makeleaf_cfg c cur, ?_, ?_⟩
        · show (makeleaf c cur).prims = c.prims
          simp only [makeleaf]
          split <;> rfl
        · omega

/-- The outer loop drains the stack, preserving the invariant all the
way down to an empty live list. -/
theorem grand_outer : ∀ fuel : ℕ, ∀ c : BState, ∀ stack : List Segment,
    Inv c stack → OuterGood c.n stack →
    μs stack + stack.length + 1 ≤ fuel →
    ∃ c', outerLoop fuel c stack = some c' ∧ Inv c' [] ∧
      c'.n = c.n ∧ c'.cfg = c.cfg ∧ c'.prims = c.prims := by
  intro fuel
  induction fuel with
  | zero =>
    intro c stack hInv hO hf
    exfalso
    omega
  | succ fuel ih =>
    intro c stack hInv hO hf
    rcases stack with _ | ⟨seg, rest⟩
    · simp only [outerLoop]
      exact ⟨c, rfl, hInv, rfl, rfl, rfl⟩
    · simp only [outerLoop]
      rw [μs_cons] at hf
      simp only [List.length_cons] at hf
      obtain ⟨c1, stack1, hrun, hI1, hO1, hn1, hcfg1, hprims1, hμ1⟩ :=
        grand_inner fuel c seg rest hInv hO (by omega)
      rw [hrun]
      obtain ⟨c', hrun2, hI', hn', hcfg', hprims'⟩ :=
        ih c1 stack1 hI1 hO1 (by omega)
      exact ⟨c', hrun2, hI', hn'.trans hn1, hcfg'.trans hcfg1, hprims'.trans hprims1⟩

/-- Folding box composition over an index range equals folding over the
boxes themselves. -/
theorem foldl_range_compose (bs : List Aabb) :
    ∀ k s x, s + k ≤ bs.length →
      (List.range' s k).foldl (fun b i => b.compose (bs.getD i Aabb.empty)) x =
      ((bs.drop s).take k).foldl Aabb.compose x := by
  intro k
  induction k with
  | zero =>
    intro s x h
    rfl
  | succ k ih =>
    intro s x h
    rw [List.range'_succ]
    show (List.range' (s + 1) k).foldl _ (x.compose (bs.getD s Aabb.empty)) = _
    rw [ih (s + 1) _ (by omega)]
    rw [List.drop_eq_getElem_cons (show s < bs.length by omega), List.take_succ_cons]
    show _ = ((bs.drop (s + 1)).take k).foldl Aabb.compose (Aabb.compose x bs[s])
    rw [List.getD_eq_getElem _ _ (show s < bs.length by omega)]

theorem unionB_range (bs : List Aabb) :
    unionB bs (List.range bs.length) = bs.foldl Aabb.compose Aabb.empty := by
  unfold unionB
  rw [List.range_eq_range']
  rw [foldl_range_compose bs bs.length 0 Aabb.empty (by omega)]
  rw [List.drop_zero, List.take_length]

/-- Establishment of the build invariant right after `injection`, at the
state and root work item `compile` starts from. -/
theorem injection_establish (cfg : Config) (soup : List Prim)
    (h1 : 1 ≤ soup.length)
    (hB : ∀ p ∈ soup, (Prim.getaabb p).Bounded) :
    Inv { injection cfg soup with maxstack := max (injection cfg soup).maxstack 1 }
      [⟨0, soup.length - 1, 0, (injection cfg soup).scenebox⟩] ∧
    OuterGood soup.length
      [⟨0, soup.length - 1, 0, (injection cfg soup).scenebox⟩] := by
  have hperm : ∀ a, a < 3 →
      List.Perm (({ injection cfg soup with
        maxstack := max (injection cfg soup).maxstack 1 } : BState).getIds a)
        (List.range soup.length) := by
    intro a ha
    interval_cases a
    · exact List.perm_insertionSort _ _
    · exact List.perm_insertionSort _ _
    · exact List.perm_insertionSort _ _
  have hlen : ∀ a, a < 3 →
      (({ injection cfg soup with
        maxstack := max (injection cfg soup).maxstack 1 } : BState).getIds a).length =
        soup.length := fun a ha =>
    (hperm a ha).length_eq.trans (List.length_range _)
  have hslice : ∀ a, a < 3 →
      slice (({ injection cfg soup with
        maxstack := max (injection cfg soup).maxstack 1 } : BState).getIds a)
        0 (soup.length - 1) =
      ({ injection cfg soup with
        maxstack := max (injection cfg soup).maxstack 1 } : BState).getIds a := by
    intro a ha
    unfold slice
    rw [List.drop_zero, show soup.length - 1 + 1 - 0 = soup.length by omega,
      ← hlen a ha, List.take_length]
  have hscene : (injection cfg soup).scenebox =
      unionB (soup.map Prim.getaabb) (List.range soup.length) := by
    show (soup.map Prim.getaabb).foldl Aabb.compose Aabb.empty = _
    have hlm : List.range soup.length = List.range (soup.map Prim.getaabb).length := by
      rw [List.length_map]
    rw [hlm, unionB_range]
  refine ⟨⟨⟨rfl, rfl, rfl, by simp [injection], hperm, ?_⟩, ?_, ?_, by simp, ?_, ?_, ?_, ?_, ?_⟩, ?_⟩
  · show ∀ b ∈ soup.map Prim.getaabb, b.Bounded
    intro b hb
    rcases List.mem_map.mp hb with ⟨p, hp, rfl⟩
    exact hB p hp
  · -- SegOK of the root segment
    intro s hs
    rcases List.mem_singleton.mp hs with rfl
    refine ⟨by show (0 : ℕ) ≤ soup.length - 1; omega,
      by show soup.length - 1 < soup.length; omega,
      by show (0 : ℕ) ≤ 0; exact Nat.le_refl 0, ?_, ?_⟩
    · show (injection cfg soup).scenebox = unionB (soup.map Prim.getaabb)
        (slice (({ injection cfg soup with
          maxstack := max (injection cfg soup).maxstack 1 } : BState).getIds 0)
          0 (soup.length - 1))
      rw [hslice 0 (by omega), hscene]
      exact unionB_perm _ _ _ (hperm 0 (by omega)).symm
    · intro a ha
      show List.Perm
          (slice (({ injection cfg soup with
            maxstack := max (injection cfg soup).maxstack 1 } : BState).getIds a)
            0 (soup.length - 1))
          (slice (({ injection cfg soup with
            maxstack := max (injection cfg soup).maxstack 1 } : BState).getIds 0)
            0 (soup.length - 1)) ∧
        List.Sorted (centLe ({ injection cfg soup with
            maxstack := max (injection cfg soup).maxstack 1 } : BState).centroids a)
          (slice (({ injection cfg soup with
            maxstack := max (injection cfg soup).maxstack 1 } : BState).getIds a)
            0 (soup.length - 1))
      rw [hslice a ha, hslice 0 (by omega)]
      constructor
      · exact ((hperm a ha).trans (hperm 0 (by omega)).symm)
      · interval_cases a
        · exact List.sorted_insertionSort _ _
        · exact List.sorted_insertionSort _ _
        · exact List.sorted_insertionSort _ _
  · exact List.pairwise_singleton _ _
  · constructor
    · intro p hp
      exact absurd hp (List.not_mem_nil p)
    · intro s hs p hp
      exact absurd hp (List.not_mem_nil p)
  · intro e he
    exact absurd he (List.not_mem_nil e)
  · intro p hp
    exact absurd hp (List.not_mem_nil p)
  · constructor
    · intro L hL
      exact absurd hL (List.not_mem_nil L)
    · rfl
  · intro _
    show max (0 : ℕ) 1 ≤ 64
    norm_num
  · show goodFrom soup.length []
      (Segment.sz ⟨0, soup.length - 1, 0, (injection cfg soup).scenebox⟩)
    show (⟨0, soup.length - 1, 0, (injection cfg soup).scenebox⟩ : Segment).sz ≤
      soup.length
    unfold Segment.sz
    show soup.length - 1 + 1 - 0 ≤ soup.length
    omega

/-- The full pipeline: `create` on a nonempty soup of bounded primitives
succeeds and returns the grown version of a state satisfying the build
invariant with no live work left. -/
theorem create_inv (cfg : Config) (soup : List Prim)
    (h1 : 1 ≤ soup.length)
    (hB : ∀ p ∈ soup, (Prim.getaabb p).Bounded) :
    ∃ c0, create cfg soup = some (growboxes c0) ∧ Inv c0 [] ∧
      c0.n = soup.length ∧ c0.cfg = cfg ∧ c0.prims = soup := by
  unfold create
  rw [if_neg (by omega)]
  unfold compile
  obtain ⟨hI, hO⟩ := injection_establish cfg soup h1 hB
  have hsz : (⟨0, soup.length - 1, 0, (injection cfg soup).scenebox⟩ : Segment).sz =
      soup.length := by
    unfold Segment.sz
    show soup.length - 1 + 1 - 0 = soup.length
    omega
  have hμ : μs [⟨0, soup.length - 1, 0, (injection cfg soup).scenebox⟩] =
      2 * soup.length - 1 := by
    rw [μs_cons, μs_nil, hsz]
    omega
  obtain ⟨c', hrun, hI', hn', hcfg', hprims'⟩ :=
    grand_outer (2 * (injection cfg soup).n + 2)
      { injection cfg soup with maxstack := max (injection cfg soup).maxstack 1 }
      [⟨0, soup.length - 1, 0, (injection cfg soup).scenebox⟩]
      hI hO
      (by rw [hμ]
          show 2 * soup.length - 1 + (0 + 1) + 1 ≤ 2 * soup.length + 2
          omega)
  have hrun2 : outerLoop (2 * (injection cfg soup).n + 2)
      { injection cfg soup with maxstack := max (injection cfg soup).maxstack 1 }
      [⟨0, (injection cfg soup).n - 1, 0, (injection cfg soup).scenebox⟩] =
      some c' := hrun
  refine ⟨c', by rw [hrun2]; rfl, hI', ?_, ?_, ?_⟩
  · rw [hn']; rfl
  · rw [hcfg']; rfl
  · rw [hprims']; rfl

/-! ## The grown output state -/

theorem find?_grow (i : ℕ) : ∀ l : List (ℕ × Node),
    ((l.map (fun p => (p.1, { p.2 with box :=
        ⟨p.2.box.pmin.sub (Vec3.const (1/1000000)),
         p.2.box.pmax.add (Vec3.const (1/1000000))⟩ }))).find?
      (fun p => p.1 == i)).map Prod.snd =
    ((l.find? (fun p => p.1 == i)).map Prod.snd).map (fun nd =>
      ⟨⟨nd.box.pmin.sub (Vec3.const (1/1000000)),
        nd.box.pmax.add (Vec3.const (1/1000000))⟩, nd.data⟩) := by
  intro l
  induction l with
  | nil => rfl
  | cons a t ih =>
    rcases hpa : (a.1 == i) with _ | _
    · rw [List.map_cons,
        List.find?_cons_of_neg _ (by simp [hpa]),
        List.find?_cons_of_neg _ (by simp [hpa])]
      exact ih
    · rw [List.map_cons,
        List.find?_cons_of_pos _ (by simpa using hpa),
        List.find?_cons_of_pos _ (by simpa using hpa)]
      rfl

/-- `growboxes` inflates every stored node box by ε on all sides and
keeps the payload. -/
theorem growboxes_getNode (c : BState) (i : ℕ) :
    (growboxes c).getNode i = (c.getNode i).map (fun nd =>
      ⟨⟨nd.box.pmin.sub (Vec3.const (1/1000000)),
        nd.box.pmax.add (Vec3.const (1/1000000))⟩, nd.data⟩) :=
  find?_grow i c.root

theorem growboxes_rootfst (c : BState) :
    (growboxes c).root.map Prod.fst = c.root.map Prod.fst := by
  show (c.root.map _).map Prod.fst = _
  rw [List.map_map]
  rfl

/-- C4: the ghost high-water mark of `stacksz` never exceeds 64 on any
input of at most `2^64` primitives with well-formed bounding boxes, so
every `stack[stacksz++]` write stays inside the 64-entry array. -/
theorem claim_C4 (cfg : Config) (soup : List Prim) (st : BState)
    (h1 : 1 ≤ soup.length)
    (hB : ∀ p ∈ soup, (Prim.getaabb p).Bounded)
    (h64 : soup.length ≤ 2 ^ 64)
    (hc : create cfg soup = some st) :
    st.maxstack ≤ 64 := by
  obtain ⟨c0, hc0, hI, hn, -, -⟩ := create_inv cfg soup h1 hB
  rw [hc0] at hc
  have hst : st = growboxes c0 := (Option.some.inj hc).symm
  subst hst
  show c0.maxstack ≤ 64
  exact hI.2.2.2.2.2.2.2.2 (by rw [hn]; exact h64)

theorem claim_C4_witness :
    1 ≤ layoutInput.length ∧
    (∀ p ∈ layoutInput, (Prim.getaabb p).Bounded) ∧
    layoutInput.length ≤ 2 ^ 64 ∧
    create defaultConfig layoutInput = some layoutRun ∧
    layoutRun.maxstack ≤ 64 :=
  ⟨by decide, by decide, by decide, by decide,
    claim_C4 defaultConfig layoutInput layoutRun (by decide) (by decide)
      (by decide) (by decide)⟩

/-- C3 amended: at every inner-node emission the driver *pushes the
side with at least as many primitives* and continues with the side with
at most as many — every recorded `(pushed, continued)` size pair
satisfies `continued ≤ pushed`. -/
theorem claim_C3_amended (cfg : Config) (soup : List Prim) (st : BState)
    (h1 : 1 ≤ soup.length)
    (hB : ∀ p ∈ soup, (Prim.getaabb p).Bounded)
    (hc : create cfg soup = some st) :
    ∀ p ∈ st.pushes, p.2 ≤ p.1 := by
  obtain ⟨c0, hc0, hI, -, -, -⟩ := create_inv cfg soup h1 hB
  rw [hc0] at hc
  have hst : st = growboxes c0 := (Option.some.inj hc).symm
  subst hst
  intro p hp
  exact hI.2.2.2.2.2.2.1 p hp

theorem claim_C3_amended_witness :
    1 ≤ layoutInput.length ∧
    create defaultConfig layoutInput = some layoutRun ∧
    ∀ p ∈ layoutRun.pushes, p.2 ≤ p.1 :=
  ⟨by decide, by decide,
    claim_C3_amended defaultConfig layoutInput layoutRun (by decide) (by decide)
      (by decide)⟩

/-- C10: every recorded parent/children triple of the output tree points
at an inner node whose single stored offset locates both children at the
consecutive slots `id + offset` and `id + offset + 1`, with
`offset ≥ 1`. -/
theorem claim_C10 (cfg : Config) (soup : List Prim) (st : BState)
    (h1 : 1 ≤ soup.length)
    (hB : ∀ p ∈ soup, (Prim.getaabb p).Bounded)
    (hc : create cfg soup = some st) :
    ∀ e ∈ st.edges, ∃ b ax off, 1 ≤ off ∧
      st.getNode e.1 = some ⟨b, NodeData.inner ax off⟩ ∧
      e.2.1 = e.1 + off ∧ e.2.2 = e.1 + off + 1 := by
  obtain ⟨c0, hc0, hI, -, -, -⟩ := create_inv cfg soup h1 hB
  rw [hc0] at hc
  have hst : st = growboxes c0 := (Option.some.inj hc).symm
  subst hst
  intro e he
  obtain ⟨ax, off, hoff, ⟨b, hnode⟩, he1, he2, -, -⟩ :=
    hI.2.2.2.2.2.1 e he
  refine ⟨⟨b.pmin.sub (Vec3.const (1/1000000)), b.pmax.add (Vec3.const (1/1000000))⟩,
    ax, off, hoff, ?_, he1, he2⟩
  rw [growboxes_getNode, hnode]
  rfl

theorem claim_C10_witness :
    1 ≤ layoutInput.length ∧
    create defaultConfig layoutInput = some layoutRun ∧
    ∀ e ∈ layoutRun.edges, ∃ b ax off, 1 ≤ off ∧
      layoutRun.getNode e.1 = some ⟨b, NodeData.inner ax off⟩ ∧
      e.2.1 = e.1 + off ∧ e.2.2 = e.1 + off + 1 :=
  ⟨by decide, by decide,
    claim_C10 defaultConfig layoutInput layoutRun (by decide) (by decide)
      (by decide)⟩

/-- C1 amended: the actual layout of the output array is *not*
left-child-at-`id+1`: for every input of at least two primitives with
well-formed boxes, every emitted inner node at id `D` with stored
offset `o` has its left child at `D + o` and its right child at
`D + o + 1` with `o ≥ 1`, and both child slots are occupied in the
output array (the subtree below `D` need not be contiguous). -/
theorem claim_C1_amended (cfg : Config) (soup : List Prim) (st : BState)
    (h2 : 2 ≤ soup.length)
    (hB : ∀ p ∈ soup, (Prim.getaabb p).Bounded)
    (hc : create cfg soup = some st) :
    ∀ e ∈ st.edges, ∃ b ax off, 1 ≤ off ∧
      st.getNode e.1 = some ⟨b, NodeData.inner ax off⟩ ∧
      e.2.1 = e.1 + off ∧ e.2.2 = e.1 + off + 1 ∧
      e.2.1 ∈ st.root.map Prod.fst ∧ e.2.2 ∈ st.root.map Prod.fst := by
  obtain ⟨c0, hc0, hI, -, -, -⟩ := create_inv cfg soup (by omega) hB
  rw [hc0] at hc
  have hst : st = growboxes c0 := (Option.some.inj hc).symm
  subst hst
  intro e he
  obtain ⟨ax, off, hoff, ⟨b, hnode⟩, he1, he2, hch1, hch2⟩ :=
    hI.2.2.2.2.2.1 e he
  refine ⟨⟨b.pmin.sub (Vec3.const (1/1000000)), b.pmax.add (Vec3.const (1/1000000))⟩,
    ax, off, hoff, ?_, he1, he2, ?_, ?_⟩
  · rw [growboxes_getNode, hnode]
    rfl
  · rw [growboxes_rootfst]
    rcases hch1 with hw | ⟨s, hs, -⟩
    · exact hw
    · exact absurd hs (List.not_mem_nil s)
  · rw [growboxes_rootfst]
    rcases hch2 with hw | ⟨s, hs, -⟩
    · exact hw
    · exact absurd hs (List.not_mem_nil s)

theorem claim_C1_amended_witness :
    2 ≤ layoutInput.length ∧
    create defaultConfig layoutInput = some layoutRun ∧
    ∀ e ∈ layoutRun.edges, ∃ b ax off, 1 ≤ off ∧
      layoutRun.getNode e.1 = some ⟨b, NodeData.inner ax off⟩ ∧
      e.2.1 = e.1 + off ∧ e.2.2 = e.1 + off + 1 ∧
      e.2.1 ∈ layoutRun.root.map Prod.fst ∧ e.2.2 ∈ layoutRun.root.map Prod.fst :=
  ⟨by decide, by decide,
    claim_C1_amended defaultConfig layoutInput layoutRun (by decide) (by decide)
      (by decide)⟩

/-- C6: in the output, every sub-intersector leaf holds exactly one
primitive, which is a sub-intersector; every triangle leaf holds only
triangles; no leaf mixes the two; and the Wald accelerator array is the
concatenation of one block per triangle leaf in which every record
carries `num` equal to that leaf's primitive count. -/
theorem claim_C6 (cfg : Config) (soup : List Prim) (st : BState)
    (h1 : 1 ≤ soup.length)
    (hB : ∀ p ∈ soup, (Prim.getaabb p).Bounded)
    (hc : create cfg soup = some st) :
    (∀ L ∈ st.leafrecs,
      L.cnt = L.pids.length ∧
      (L.isIsec = true → ∃ i, L.pids = [i] ∧ (st.primAt i).istri = false) ∧
      (L.isIsec = false → ∀ i ∈ L.pids, (st.primAt i).istri = true)) ∧
    st.acc = buildAcc soup st.leafrecs := by
  obtain ⟨c0, hc0, hI, -, -, hprims⟩ := create_inv cfg soup h1 hB
  rw [hc0] at hc
  have hst : st = growboxes c0 := (Option.some.inj hc).symm
  subst hst
  have hLeaf := hI.2.2.2.2.2.2.2.1
  constructor
  · intro L hL
    exact hLeaf.1 L hL
  · show c0.acc = buildAcc soup c0.leafrecs
    have h := hLeaf.2
    rw [hprims] at h
    exact h

theorem claim_C6_witness :
    1 ≤ layoutInput.length ∧
    create defaultConfig layoutInput = some layoutRun ∧
    ((∀ L ∈ layoutRun.leafrecs,
      L.cnt = L.pids.length ∧
      (L.isIsec = true → ∃ i, L.pids = [i] ∧ (layoutRun.primAt i).istri = false) ∧
      (L.isIsec = false → ∀ i ∈ L.pids, (layoutRun.primAt i).istri = true)) ∧
    layoutRun.acc = buildAcc layoutInput layoutRun.leafrecs) :=
  ⟨by decide, by decide,
    claim_C6 defaultConfig layoutInput layoutRun (by decide) (by decide)
      (by decide)⟩

/-- C5: the segment invariant — the segment's box is the union of the
AABBs of the primitives in `ids[0][first..last]`, the three per-axis
ranges hold the same primitive indices, and each is sorted by its own
centroid coordinate — holds for the root work item right after
injection, and one split step preserves it for both resulting
sub-segments and every deferred segment. -/
theorem claim_C5
    (cfg : Config) (soup : List Prim) (h1 : 1 ≤ soup.length)
    (hB : ∀ p ∈ soup, (Prim.getaabb p).Bounded)
    (c : BState) (cur : Segment) (stack : List Segment)
    (hInv : Inv c (cur :: stack)) (hgf : goodFrom c.n stack cur.sz)
    (hone : cur.first < cur.last)
    (hsplit : (bestOf3 c cur.first cur.last).firstL ≠ -1) :
    SegOK { injection cfg soup with maxstack := max (injection cfg soup).maxstack 1 }
      ⟨0, soup.length - 1, 0, (injection cfg soup).scenebox⟩ ∧
    (∀ s ∈ (splitStep c cur (bestOf3 c cur.first cur.last) stack.length).2.1 ::
        (splitStep c cur (bestOf3 c cur.first cur.last) stack.length).2.2 :: stack,
      SegOK (splitStep c cur (bestOf3 c cur.first cur.last) stack.length).1 s) := by
  constructor
  · exact (injection_establish cfg soup h1 hB).1.2.1 _ (List.mem_singleton.mpr rfl)
  · rcases bestOf3_shape c cur.first cur.last hone with
      ⟨A, jb, hA3, hjb1, hjb2, hax, hfL, hlL, hfR, hlR, hbL, hbR⟩ |
      ⟨A, hA3, hsf, -, -, -⟩
    · exact (splitStep_preserves c cur stack hInv hgf _ A jb hA3 hjb1 hjb2 hax
        hfL hlL hfR hlR hbL hbR).1.2.1
    · exact absurd hsf hsplit

theorem claim_C5_witness :
    SegOK { injection defaultConfig layoutInput with
        maxstack := max (injection defaultConfig layoutInput).maxstack 1 }
      ⟨0, layoutInput.length - 1, 0, (injection defaultConfig layoutInput).scenebox⟩ ∧
    (∀ s ∈ (splitStep
        { injection defaultConfig layoutInput with
          maxstack := max (injection defaultConfig layoutInput).maxstack 1 }
        ⟨0, layoutInput.length - 1, 0, (injection defaultConfig layoutInput).scenebox⟩
        (bestOf3
          { injection defaultConfig layoutInput with
            maxstack := max (injection defaultConfig layoutInput).maxstack 1 }
          0 (layoutInput.length - 1)) 0).2.1 ::
      (splitStep
        { injection defaultConfig layoutInput with
          maxstack := max (injection defaultConfig layoutInput).maxstack 1 }
        ⟨0, layoutInput.length - 1, 0, (injection defaultConfig layoutInput).scenebox⟩
        (bestOf3
          { injection defaultConfig layoutInput with
            maxstack := max (injection defaultConfig layoutInput).maxstack 1 }
          0 (layoutInput.length - 1)) 0).2.2 :: ([] : List Segment),
      SegOK (splitStep
        { injection defaultConfig layoutInput with
          maxstack := max (injection defaultConfig layoutInput).maxstack 1 }
        ⟨0, layoutInput.length - 1, 0, (injection defaultConfig layoutInput).scenebox⟩
        (bestOf3
          { injection defaultConfig layoutInput with
            maxstack := max (injection defaultConfig layoutInput).maxstack 1 }
          0 (layoutInput.length - 1)) 0).1 s) :=
  claim_C5 defaultConfig layoutInput (by decide) (by decide)
    { injection defaultConfig layoutInput with
      maxstack := max (injection defaultConfig layoutInput).maxstack 1 }
    ⟨0, layoutInput.length - 1, 0, (injection defaultConfig layoutInput).scenebox⟩
    []
    (injection_establish defaultConfig layoutInput (by decide) (by decide)).1
    (injection_establish defaultConfig layoutInput (by decide) (by decide)).2
    (by decide) (by decide)

end BVH
